import Mathlib

/-!
Verification of the `AzureBlockUpload` block-upload orchestrator
(`src/unnamed/part_000`, with `src/src/AzureBlockUpload.js` an older variant).

The development shallowly embeds:
* the block planner `analizeFile` (effective block size, total block count,
  per-block byte ranges computed inside `job`);
* the constructor's synchronous argument validation;
* the block-identifier derivation `base64(prefix + padStart(nBlock, 5))`
  together with an executable base64 codec and a decimal-digits printer;
* a small-step operational model of `start(dataEncryptionKey)`: one state
  machine whose steps are the atomic synchronous segments of each block job
  (the segments between `await` points), driven by an arbitrary schedule,
  so every completion order of the block transfers is covered.

JS numeric quirks that matter are modelled explicitly: `Option Nat` with
`none` standing for NaN in the total-block computation, and Nat truncated
subtraction standing for the decrement-then-clamp-at-zero of
`totalRemainingBytes`.
-/

namespace AzureBlockUpload

/-- From `analizeFile` (part_000 lines 100-103): if the file is smaller than
the block size, the block size is reduced to the file size. -/
def effBlockSize (fs bs : Nat) : Nat := if fs < bs then fs else bs

/-- From `analizeFile` (part_000 lines 108-111):
`totalBlocks = fs % bs === 0 ? fs / bs : Math.ceil(fs / bs)` computed with the
effective block size.  `none` models the JS value NaN produced by `fs % 0`
when the effective block size is 0 — which, for a positive requested block
size, happens exactly when `fs = 0`. -/
def totalBlocksN (fs bs : Nat) : Option Nat :=
  if effBlockSize fs bs = 0 then none
  else if fs % effBlockSize fs bs = 0 then some (fs / effBlockSize fs bs)
  else some ((fs + effBlockSize fs bs - 1) / effBlockSize fs bs)

/-- Number of iterations of the submission loop in `start`
(part_000 lines 193-195): `for (nBlock = 0; nBlock < totalBlocks; ...)`.
When `totalBlocks` is NaN the comparison `nBlock < NaN` is false and the loop
body never runs, hence 0 jobs. -/
def numJobs (fs bs : Nat) : Nat := (totalBlocksN fs bs).getD 0

/-- `from = nBlock * this.blockSize` (part_000 line 133). -/
def blockFrom (e n : Nat) : Nat := n * e

/-- `to = (nBlock+1)*blockSize < fileSize ? (nBlock+1)*blockSize : fileSize`
(part_000 lines 134-137). -/
def blockTo (fs e n : Nat) : Nat := if (n + 1) * e < fs then (n + 1) * e else fs

theorem effBlockSize_pos {fs bs : Nat} (hfs : 0 < fs) (hbs : 0 < bs) :
    0 < effBlockSize fs bs := by
  unfold effBlockSize; split <;> omega

theorem effBlockSize_zero_of_fs_zero (bs : Nat) : effBlockSize 0 bs = 0 := by
  unfold effBlockSize; split <;> omega

/-- Ceiling-division bounds: for `e > 0`, `(fs + e - 1) / e` is the least `q`
with `fs ≤ q * e`. -/
theorem ceilDiv_bounds {fs e : Nat} (he : 0 < e) :
    fs ≤ ((fs + e - 1) / e) * e ∧ ((fs + e - 1) / e) * e < fs + e := by
  have hdm := Nat.div_add_mod (fs + e - 1) e
  have hm : (fs + e - 1) % e < e := Nat.mod_lt _ he
  have hc : e * ((fs + e - 1) / e) = ((fs + e - 1) / e) * e := Nat.mul_comm _ _
  constructor <;> omega

theorem div_eq_ceilDiv_of_mod_zero {fs e : Nat} (he : 0 < e) (h : fs % e = 0) :
    fs / e = (fs + e - 1) / e := by
  obtain ⟨q, hq⟩ : e ∣ fs := Nat.dvd_of_mod_eq_zero h
  subst hq
  rw [Nat.mul_div_cancel_left _ he, Nat.mul_comm e q, Nat.add_sub_assoc (by omega),
    Nat.add_comm (q * e) (e - 1), Nat.add_mul_div_right _ _ he,
    Nat.div_eq_of_lt (by omega), Nat.zero_add]

theorem totalBlocksN_eq_ceil {fs bs : Nat} (he : 0 < effBlockSize fs bs) :
    totalBlocksN fs bs = some ((fs + effBlockSize fs bs - 1) / effBlockSize fs bs) := by
  unfold totalBlocksN
  rw [if_neg (by omega)]
  by_cases hdvd : fs % effBlockSize fs bs = 0
  · rw [if_pos hdvd, div_eq_ceilDiv_of_mod_zero he hdvd]
  · rw [if_neg hdvd]

theorem numJobs_eq_ceil {fs bs : Nat} (he : 0 < effBlockSize fs bs) :
    numJobs fs bs = (fs + effBlockSize fs bs - 1) / effBlockSize fs bs := by
  unfold numJobs
  rw [totalBlocksN_eq_ceil he]
  rfl

theorem numJobs_zero_of_e_zero {fs bs : Nat} (he : effBlockSize fs bs = 0) :
    numJobs fs bs = 0 := by
  unfold numJobs totalBlocksN
  simp [he]

/-- Main bounds for a positive file: `fs ≤ tb * e < fs + e`. -/
theorem numJobs_bounds {fs bs : Nat} (hfs : 0 < fs) (hbs : 0 < bs) :
    fs ≤ numJobs fs bs * effBlockSize fs bs ∧
      numJobs fs bs * effBlockSize fs bs < fs + effBlockSize fs bs := by
  have he := effBlockSize_pos hfs hbs
  rw [numJobs_eq_ceil he]
  exact ceilDiv_bounds he

theorem numJobs_pos {fs bs : Nat} (hfs : 0 < fs) (hbs : 0 < bs) :
    0 < numJobs fs bs := by
  have he := effBlockSize_pos hfs hbs
  have h := numJobs_bounds hfs hbs
  rcases Nat.eq_zero_or_pos (numJobs fs bs) with h0 | h0
  · rw [h0] at h; omega
  · exact h0

/-- conversely, positive total blocks forces a positive file and block size. -/
theorem pos_of_numJobs_pos {fs bs : Nat} (h : 0 < numJobs fs bs) :
    0 < fs ∧ 0 < effBlockSize fs bs := by
  by_cases he : effBlockSize fs bs = 0
  · rw [numJobs_zero_of_e_zero he] at h; omega
  · refine ⟨?_, by omega⟩
    by_cases hfs : fs = 0
    · subst hfs; rw [effBlockSize_zero_of_fs_zero] at he; omega
    · omega

/-- the sum of the first `N` block lengths is `min (N * e) fs`. -/
theorem sum_block_lengths (fs e : Nat) (N : Nat) :
    (Finset.range N).sum (fun n => blockTo fs e n - blockFrom e n) = min (N * e) fs := by
  induction N with
  | zero => simp
  | succ N ih =>
    rw [Finset.sum_range_succ, ih]
    unfold blockTo blockFrom
    have h1 : N * e ≤ (N + 1) * e := by nlinarith
    split <;> omega

/-- C5 partition membership: every byte `k < fs` lies in the unique block
`k / e`. -/
theorem block_partition {fs bs : Nat} (hfs : 0 < fs) (hbs : 0 < bs) {k : Nat}
    (hk : k < fs) :
    ∃! n, n < numJobs fs bs ∧ blockFrom (effBlockSize fs bs) n ≤ k ∧
      k < blockTo fs (effBlockSize fs bs) n := by
  have he := effBlockSize_pos hfs hbs
  set e := effBlockSize fs bs with hedef
  set tb := numJobs fs bs with htbdef
  have hbounds : fs ≤ tb * e ∧ tb * e < fs + e := numJobs_bounds hfs hbs
  refine ⟨k / e, ⟨?_, ?_, ?_⟩, ?_⟩
  · -- k / e < tb
    rw [Nat.div_lt_iff_lt_mul he]
    omega
  · exact Nat.div_mul_le_self k e
  · -- k < blockTo fs e (k / e)
    have hlt : k < (k / e + 1) * e := by
      rw [← Nat.div_lt_iff_lt_mul he]; omega
    unfold blockTo
    split <;> omega
  · rintro m ⟨-, hm1, hm2⟩
    -- from m * e ≤ k < (m+1) * e conclude m = k / e
    unfold blockFrom at hm1
    have hm2' : k < (m + 1) * e := by
      unfold blockTo at hm2; split at hm2 <;> omega
    have h1 : m ≤ k / e := (Nat.le_div_iff_mul_le he).mpr hm1
    have h2 : k / e < m + 1 := by rw [Nat.div_lt_iff_lt_mul he]; omega
    omega

/-- C5: For every `fileSize ≥ 0` and requested `blockSize > 0`, the plan
produces `totalBlocks = ⌈fileSize / effectiveBlockSize⌉` block ranges (no
extra empty trailing block on exact multiples), block `n` covers
`[n*e, min ((n+1)*e) fileSize)`, the ranges partition `[0, fileSize)` with no
gaps or overlaps, and the range lengths sum to `fileSize`. -/
theorem blockPlan_partitions (fs bs : Nat) (hbs : 0 < bs) :
    numJobs fs bs = (fs + effBlockSize fs bs - 1) / effBlockSize fs bs ∧
    (∀ n, blockFrom (effBlockSize fs bs) n = n * effBlockSize fs bs ∧
      blockTo fs (effBlockSize fs bs) n = min ((n + 1) * effBlockSize fs bs) fs) ∧
    (∀ k, k < fs → ∃! n, n < numJobs fs bs ∧
      blockFrom (effBlockSize fs bs) n ≤ k ∧ k < blockTo fs (effBlockSize fs bs) n) ∧
    (Finset.range (numJobs fs bs)).sum
      (fun n => blockTo fs (effBlockSize fs bs) n - blockFrom (effBlockSize fs bs) n) = fs := by
  refine ⟨?_, ?_, ?_, ?_⟩
  · by_cases hfs : fs = 0
    · subst hfs
      rw [numJobs_zero_of_e_zero (effBlockSize_zero_of_fs_zero bs),
        effBlockSize_zero_of_fs_zero]
    · exact numJobs_eq_ceil (effBlockSize_pos (by omega) hbs)
  · intro n
    refine ⟨rfl, ?_⟩
    unfold blockTo
    split <;> omega
  · intro k hk
    exact block_partition (by omega) hbs hk
  · rw [sum_block_lengths]
    by_cases hfs : fs = 0
    · subst hfs; omega
    · have := numJobs_bounds (show 0 < fs by omega) hbs
      omega

/-- Witness for C5 at the spec's own example: file of 10 bytes, block size 4
gives blocks `[0,4) [4,8) [8,10)`, `totalBlocks = 3`, last block length 2. -/
theorem blockPlan_partitions_witness :
    0 < 4 ∧ numJobs 10 4 = 3 ∧ blockTo 10 (effBlockSize 10 4) 2 = 10 ∧
      (Finset.range (numJobs 10 4)).sum
        (fun n => blockTo 10 (effBlockSize 10 4) n - blockFrom (effBlockSize 10 4) n) = 10 := by
  refine ⟨by decide, by decide, by decide, ?_⟩
  exact (blockPlan_partitions 10 4 (by decide)).2.2.2

/-! ### Constructor validation (part_000 lines 26-74)

The constructor checks only the *types* of its arguments: `url` must be a
string, `file` a `File` (or string), and `opts.blockSize` /
`opts.simultaneousUploads`, when provided as truthy values, must be numbers.
It performs no range validation whatsoever.  A provided option is modelled by
`JSOpt`: absent, a number, or a truthy non-number. -/

/-- One optional constructor argument as JavaScript sees it.  `num 0` is falsy
in JS, so both the `opts.x && typeof opts.x !== "number"` type check and the
`opts.x || default` defaulting treat it like an absent value. -/
inductive JSOpt where
  | missing : JSOpt
  | num : Int → JSOpt
  | nonNum : JSOpt
deriving DecidableEq

/-- `opts.x || default` (part_000 lines 47 and 56). -/
def jsOptOrDefault (o : JSOpt) (dflt : Int) : Int :=
  match o with
  | .missing => dflt
  | .num v => if v = 0 then dflt else v
  | .nonNum => dflt

/-- `opts.x && typeof opts.x !== "number"` (part_000 lines 43, 49-52):
true exactly for a truthy non-number. -/
def jsOptBadType (o : JSOpt) : Bool :=
  match o with
  | .nonNum => true
  | _ => false

/-- Configuration produced by a successful construction: the fields set by the
constructor and by `analizeFile` (which performs arithmetic only and never
throws).  `blockSize` is the effective block size after the shrink-to-file
adjustment of part_000 lines 101-103, computed with JS `<` on numbers. -/
structure UploadCfg where
  fileSize : Int
  blockSize : Int
  simultaneousUploads : Int
deriving DecidableEq

/-- The constructor (part_000 lines 26-74) followed by `analizeFile`.
`maxBlock` stands for the external constant `BlobStorage.BLOCK_MAX_SIZE`,
`urlIsString` / `fileOk` for the outcomes of the two `typeof` checks, and
`fileSize` for `FileUtils.getSize(this.file)`.  Each `throw new Error(...)`
becomes an `Except.error` with the thrown message. -/
def mkUpload (maxBlock : Int) (urlIsString fileOk : Bool) (fileSize : Int)
    (blockSizeOpt simulOpt : JSOpt) : Except String UploadCfg :=
  if !urlIsString then .error "url must be a string"
  else if !fileOk then .error "file must be instance of File"
  else if jsOptBadType blockSizeOpt then .error "blockSize must be a number"
  else if jsOptBadType simulOpt then .error "simultaneousUploads must be a number"
  else
    -- analizeFile: shrink block size to the file size when the file is smaller
    .ok { fileSize := fileSize
          blockSize :=
            if fileSize < jsOptOrDefault blockSizeOpt maxBlock then fileSize
            else jsOptOrDefault blockSizeOpt maxBlock
          simultaneousUploads := jsOptOrDefault simulOpt 3 }

/-- C9 counterexample: constructing with a negative file size (-5) and a
negative requested block size (-4) succeeds — no `InvalidConfiguration`
error is raised, contradicting the claim that construction fails
synchronously whenever `fileSize < 0` or `blockSize ≤ 0`. -/
theorem mkUpload_accepts_invalid_ranges :
    (mkUpload 268435456 true true (-5) (.num (-4)) .missing).isOk = true ∧
    (mkUpload 268435456 true true 10 (.num 0) .missing =
      .ok ⟨10, 10, 3⟩) := by
  constructor
  · rfl
  · rfl

/-- C9 amended: construction fails synchronously exactly for *type* errors —
`url` not a string, `file` not a `File`, or a truthy non-number
`blockSize`/`simultaneousUploads`.  No range check exists: any numeric
`blockSize` (zero falls back to the default, negatives are kept) and any
`fileSize` (including negatives) are accepted. -/
theorem mkUpload_isOk_iff (maxBlock : Int) (urlIsString fileOk : Bool)
    (fileSize : Int) (blockSizeOpt simulOpt : JSOpt) :
    (mkUpload maxBlock urlIsString fileOk fileSize blockSizeOpt simulOpt).isOk =
      (urlIsString && fileOk && !jsOptBadType blockSizeOpt && !jsOptBadType simulOpt) := by
  unfold mkUpload
  cases urlIsString <;> cases fileOk <;>
    cases blockSizeOpt <;> cases simulOpt <;> simp [jsOptBadType, Except.isOk, Except.toBool]

/-! ### Block identifiers (part_000 line 139)

`const blockID = base64(`${this.blockIDPrefix}${padStart(nBlock, 5)}`)`.

`padStart` is `lodash.padstart` with its *default* pad character, a space:
`padStart(3, 5) = "    3"`.  `base64` is `Buffer.from(str).toString("base64")`
(or `window.btoa`); for the ASCII strings produced here both agree with
standard base64 over the code points of the string. -/

/-- The decimal digit character for `d < 10` (JS number-to-string). -/
def digitChar (d : Nat) : Char := Char.ofNat (48 + d)

/-- Fuel-driven decimal printer; `fuel > n` suffices. -/
def natDigitsAux : Nat → Nat → List Char
  | 0, _ => []
  | fuel + 1, n =>
    if n < 10 then [digitChar n]
    else natDigitsAux fuel (n / 10) ++ [digitChar (n % 10)]

/-- Decimal digit list of `n`, most significant first — JS `String(n)` for a
non-negative integer. -/
def natDigits (n : Nat) : List Char := natDigitsAux (n + 1) n

/-- JS `String(n)` for `n : Nat`. -/
def jsNatToString (n : Nat) : String := String.mk (natDigits n)

/-- lodash `padStart(s, len)` with the default pad chars `" "`: left-pad `s`
with spaces up to length `len` (no-op when `s` is already long enough). -/
def padStartStr (s : String) (len : Nat) (c : Char) : String :=
  if len ≤ s.length then s
  else String.mk (List.replicate (len - s.length) c) ++ s

/-- The base64 alphabet. -/
def b64Table : List Char :=
  "ABCDEFGHIJKLMNOPQRSTUVWXYZabcdefghijklmnopqrstuvwxyz0123456789+/".data

/-- Character for a sextet. -/
def b64Chr (i : Nat) : Char := b64Table.getD i 'A'

/-- Sextet for an alphabet character. -/
def b64Val (c : Char) : Nat := b64Table.indexOf c

/-- Standard base64 of a byte list (big-endian sextets, `=` padding). -/
def b64Encode : List Nat → List Char
  | [] => []
  | [b0] => [b64Chr (b0 / 4), b64Chr (b0 % 4 * 16), '=', '=']
  | [b0, b1] => [b64Chr (b0 / 4), b64Chr (b0 % 4 * 16 + b1 / 16), b64Chr (b1 % 16 * 4), '=']
  | b0 :: b1 :: b2 :: rest =>
    b64Chr (b0 / 4) :: b64Chr (b0 % 4 * 16 + b1 / 16) ::
      b64Chr (b1 % 16 * 4 + b2 / 64) :: b64Chr (b2 % 64) :: b64Encode rest

/-- Inverse of `b64Encode` on well-formed output. -/
def b64Decode : List Char → List Nat
  | a :: b :: c :: d :: rest =>
    if c = '=' then [b64Val a * 4 + b64Val b / 16]
    else if d = '=' then
      [b64Val a * 4 + b64Val b / 16, b64Val b % 16 * 16 + b64Val c / 4]
    else
      (b64Val a * 4 + b64Val b / 16) :: (b64Val b % 16 * 16 + b64Val c / 4) ::
        (b64Val c % 4 * 64 + b64Val d) :: b64Decode rest
  | _ => []

/-- Code points of a string; equals its UTF-8 bytes for the ASCII strings
(prefix + space-padded decimal index) that `blockID` is built from. -/
def strBytes (s : String) : List Nat := s.data.map Char.toNat

/-- `base64(str)` of part_000 lines 9-10. -/
def base64Str (s : String) : String := String.mk (b64Encode (strBytes s))

/-- The block identifier the code computes (part_000 line 139):
base64 of the prefix followed by the *space*-padded 5-wide decimal index. -/
def blockIDStr (idPre : String) (n : Nat) : String :=
  base64Str (idPre ++ padStartStr (jsNatToString n) 5 ' ')

/-- The block identifier the spec describes: base64 of the prefix followed by
the *zero*-padded 5-digit decimal index. -/
def blockIDZeroPadded (idPre : String) (n : Nat) : String :=
  base64Str (idPre ++ padStartStr (jsNatToString n) 5 '0')

/-! ### Injectivity of the block identifier -/

theorem digitChar_toNat {d : Nat} (h : d < 10) : (digitChar d).toNat = 48 + d := by
  interval_cases d <;> decide

theorem natDigitsAux_fuel_irrel :
    ∀ fuel fuel' n, n < fuel → n < fuel' →
      natDigitsAux fuel n = natDigitsAux fuel' n := by
  intro fuel
  induction fuel with
  | zero => omega
  | succ f ih =>
    intro fuel' n hf hf'
    cases fuel' with
    | zero => omega
    | succ f' =>
      unfold natDigitsAux
      by_cases h10 : n < 10
      · rw [if_pos h10, if_pos h10]
      · rw [if_neg h10, if_neg h10, ih f' (n / 10) (by omega) (by omega)]

theorem natDigits_unfold (n : Nat) :
    natDigits n =
      if n < 10 then [digitChar n]
      else natDigits (n / 10) ++ [digitChar (n % 10)] := by
  show natDigitsAux (n + 1) n = _
  unfold natDigitsAux
  by_cases h10 : n < 10
  · rw [if_pos h10, if_pos h10]
  · rw [if_neg h10, if_neg h10,
      natDigitsAux_fuel_irrel n (n / 10 + 1) (n / 10) (by omega) (by omega)]
    rfl

theorem natDigits_ne_nil (n : Nat) : natDigits n ≠ [] := by
  rw [natDigits_unfold]
  split <;> simp

theorem natDigits_all_digits (n : Nat) :
    ∀ c ∈ natDigits n, 48 ≤ c.toNat ∧ c.toNat ≤ 57 := by
  induction n using Nat.strong_induction_on with
  | _ n ih =>
    rw [natDigits_unfold]
    by_cases h10 : n < 10
    · rw [if_pos h10]
      intro c hc
      rw [List.mem_singleton] at hc
      subst hc
      rw [digitChar_toNat h10]
      omega
    · rw [if_neg h10]
      intro c hc
      rw [List.mem_append] at hc
      rcases hc with hc | hc
      · exact ih (n / 10) (by omega) c hc
      · rw [List.mem_singleton] at hc
        subst hc
        rw [digitChar_toNat (Nat.mod_lt _ (by omega))]
        have := Nat.mod_lt n (y := 10) (by omega)
        omega

/-- Reading decimal digit code points back into a number. -/
def digitsFold (bs : List Nat) : Nat := bs.foldl (fun a b => a * 10 + (b - 48)) 0

theorem digitsFold_append_one (bs : List Nat) (b : Nat) :
    digitsFold (bs ++ [b]) = digitsFold bs * 10 + (b - 48) := by
  unfold digitsFold
  rw [List.foldl_append]
  rfl

theorem digitsFold_natDigits (n : Nat) :
    digitsFold ((natDigits n).map Char.toNat) = n := by
  induction n using Nat.strong_induction_on with
  | _ n ih =>
    rw [natDigits_unfold]
    by_cases h10 : n < 10
    · rw [if_pos h10]
      show digitsFold [(digitChar n).toNat] = n
      rw [digitsFold, List.foldl_cons, List.foldl_nil, digitChar_toNat h10]
      omega
    · rw [if_neg h10, List.map_append, List.map_singleton, digitsFold_append_one,
        ih (n / 10) (by omega), digitChar_toNat (Nat.mod_lt _ (by omega))]
      omega

theorem b64Val_b64Chr : ∀ i, i < 64 → b64Val (b64Chr i) = i := by decide

theorem b64Chr_ne_eq : ∀ i, i < 64 → b64Chr i ≠ '=' := by decide

/-- base64 round-trip on byte lists (all entries `< 256`). -/
theorem b64Decode_b64Encode :
    ∀ l : List Nat, (∀ b ∈ l, b < 256) → b64Decode (b64Encode l) = l := by
  intro l
  induction l using b64Encode.induct with
  | case1 => intro _; rfl
  | case2 b0 =>
    intro hv
    have h0 : b0 < 256 := hv b0 (by simp)
    rw [b64Encode, b64Decode]
    rw [if_pos rfl]
    rw [b64Val_b64Chr _ (by omega), b64Val_b64Chr _ (by omega)]
    congr 1
    omega
  | case3 b0 b1 =>
    intro hv
    have h0 : b0 < 256 := hv b0 (by simp)
    have h1 : b1 < 256 := hv b1 (by simp)
    rw [b64Encode, b64Decode]
    rw [if_neg (b64Chr_ne_eq _ (by omega)), if_pos rfl]
    rw [b64Val_b64Chr _ (by omega), b64Val_b64Chr _ (by omega),
      b64Val_b64Chr _ (by omega)]
    congr 1
    · omega
    · congr 1
      omega
  | case4 b0 b1 b2 rest ih =>
    intro hv
    have h0 : b0 < 256 := hv b0 (by simp)
    have h1 : b1 < 256 := hv b1 (by simp)
    have h2 : b2 < 256 := hv b2 (by simp)
    rw [b64Encode, b64Decode]
    rw [if_neg (b64Chr_ne_eq _ (by omega)), if_neg (b64Chr_ne_eq _ (by omega))]
    rw [b64Val_b64Chr _ (by omega), b64Val_b64Chr _ (by omega),
      b64Val_b64Chr _ (by omega), b64Val_b64Chr _ (by omega)]
    rw [ih (fun b hb => hv b (by simp [hb]))]
    congr 1
    · omega
    congr 1
    · omega
    congr 1
    omega

theorem padStartStr_data (s : String) (len : Nat) (c : Char) :
    (padStartStr s len c).data = List.replicate (len - s.length) c ++ s.data := by
  unfold padStartStr
  by_cases h : len ≤ s.length
  · rw [if_pos h]
    have : len - s.length = 0 := by omega
    rw [this, List.replicate_zero, List.nil_append]
  · rw [if_neg h, String.data_append]

theorem dropWhile_replicate_append (p : Nat → Bool) (k : Nat) (a : Nat)
    (l : List Nat) (ha : p a = true) :
    List.dropWhile p (List.replicate k a ++ l) = List.dropWhile p l := by
  induction k with
  | zero => rfl
  | succ k ih =>
    rw [List.replicate_succ, List.cons_append, List.dropWhile_cons_of_pos ha, ih]

/-- Decode a block identifier built with the 5-character prefix `"block"`
back to its block index: un-base64, drop the prefix bytes, drop the pad
spaces, read the decimal digits. -/
def recoverIdx (s : String) : Nat :=
  digitsFold (((b64Decode s.data).drop 5).dropWhile (fun b => b == 32))

theorem strBytes_append (s t : String) :
    strBytes (s ++ t) = strBytes s ++ strBytes t := by
  unfold strBytes
  rw [String.data_append, List.map_append]

theorem recoverIdx_blockIDStr (n : Nat) :
    recoverIdx (blockIDStr "block" n) = n := by
  unfold recoverIdx blockIDStr base64Str
  have hdigits := natDigits_all_digits n
  have hbytes : ∀ b ∈ strBytes ("block" ++ padStartStr (jsNatToString n) 5 ' '), b < 256 := by
    intro b hb
    rw [strBytes_append] at hb
    rcases List.mem_append.mp hb with hb | hb
    · rw [show strBytes "block" = [98, 108, 111, 99, 107] from rfl] at hb
      simp only [List.mem_cons, List.not_mem_nil, or_false] at hb
      rcases hb with rfl | rfl | rfl | rfl | rfl <;> decide
    · unfold strBytes jsNatToString at hb
      rw [padStartStr_data] at hb
      rcases List.mem_map.mp hb with ⟨c, hc, rfl⟩
      rcases List.mem_append.mp hc with hc | hc
      · rw [List.eq_of_mem_replicate hc]
        decide
      · have := hdigits c hc
        omega
  show digitsFold
      (((b64Decode (String.mk (b64Encode _)).data).drop 5).dropWhile (fun b => b == 32)) = n
  rw [show (String.mk (b64Encode (strBytes ("block" ++ padStartStr (jsNatToString n) 5 ' ')))).data
      = b64Encode (strBytes ("block" ++ padStartStr (jsNatToString n) 5 ' ')) from rfl]
  rw [b64Decode_b64Encode _ hbytes]
  rw [strBytes_append]
  rw [show strBytes "block" = [98, 108, 111, 99, 107] from rfl]
  have hdrop : List.drop 5
      ([98, 108, 111, 99, 107] ++ strBytes (padStartStr (jsNatToString n) 5 ' ')) =
      strBytes (padStartStr (jsNatToString n) 5 ' ') := rfl
  rw [hdrop]
  unfold strBytes jsNatToString
  rw [padStartStr_data]
  rw [show (String.mk (natDigits n)).data = natDigits n from rfl]
  rw [List.map_append, List.map_replicate]
  rw [show Char.toNat ' ' = 32 from rfl]
  rw [dropWhile_replicate_append _ _ _ _ rfl]
  obtain ⟨c, cs, hcs⟩ : ∃ c cs, natDigits n = c :: cs := by
    rcases h : natDigits n with _ | ⟨c, cs⟩
    · exact absurd h (natDigits_ne_nil n)
    · exact ⟨c, cs, rfl⟩
  have hc : 48 ≤ c.toNat ∧ c.toNat ≤ 57 := hdigits c (by rw [hcs]; exact List.mem_cons_self _ _)
  rw [hcs, List.map_cons, List.dropWhile_cons_of_neg (by simp; omega), ← List.map_cons, ← hcs]
  exact digitsFold_natDigits n

/-- C4 counterexample: at block index 3 (with the default prefix `"block"`)
the code's identifier is the base64 of the *space*-padded `"block    3"`,
namely `"YmxvY2sgICAgMw=="`, not the base64 of the zero-padded
`"block00003"` (`"YmxvY2swMDAwMw=="`) that the claim describes. -/
theorem blockIDStr_not_zero_padded :
    blockIDStr "block" 3 ≠ blockIDZeroPadded "block" 3 ∧
      blockIDStr "block" 3 = "YmxvY2sgICAgMw==" ∧
      blockIDZeroPadded "block" 3 = "YmxvY2swMDAwMw==" := by
  refine ⟨by decide, by decide, by decide⟩

/-- C4 amended: the block identifier is the base64 encoding of the prefix
followed by the *space*-padded (width 5, lodash `padStart` default) decimal
index, and identifiers of distinct blocks are pairwise distinct for every
upload with `totalBlocks` up to 99999 (indeed for all indices). -/
theorem blockIDStr_injective (n m : Nat) (hn : n < 99999) (hm : m < 99999)
    (hnm : n ≠ m) : blockIDStr "block" n ≠ blockIDStr "block" m := by
  intro heq
  apply hnm
  have := congrArg recoverIdx heq
  rwa [recoverIdx_blockIDStr, recoverIdx_blockIDStr] at this

/-- Distinctness of the first two block identifiers, by the theorem above. -/
theorem blockIDStr_injective_witness :
    (0 : Nat) < 99999 ∧ (1 : Nat) < 99999 ∧ (0 : Nat) ≠ 1 ∧
      blockIDStr "block" 0 ≠ blockIDStr "block" 1 :=
  ⟨by decide, by decide, by decide,
    blockIDStr_injective 0 1 (by decide) (by decide) (by decide)⟩

/-! ### Operational model of `start(dataEncryptionKey)` (part_000 lines 117-199)

Each block job `job(nBlock)` is an async function whose body splits at its
`await` points into atomic synchronous segments (JS is single-threaded):

* segment 0 — on being started by the `ThreadPool`: compute `from`/`to`,
  compute `blockID`, `blockIDList.push(blockID)`, initiate `readBlock`;
* segment 1 — when the read settles: record `artifacts.range[nBlock]`
  (unconditionally, line 143), and if a key was supplied generate the IV,
  encrypt, record `artifacts.iv[nBlock]` and `artifacts.at[nBlock]`; initiate
  `putBlock`;
* segment 2 — when the transfer settles: compute `progress`, decrement
  `totalRemainingBytes` by `blockSize` and clamp at 0; if it reached 0,
  initiate `commit()` (`putBlockList`), otherwise call `onProgress`,
  re-check the counter (unchanged within the same segment) and return;
* segment 3 — when the commit settles: call `onProgress`, and if the counter
  is 0, call `onSuccess({artifacts})` and `resolve()` (with *no* argument).

Any rejection/throw inside a segment is caught by the job's `try/catch`,
which calls `onError(error)` and `reject(error)`.

The `ThreadPool` class is not part of the repository sources provided;
its behaviour is modelled from the spec (§4.2 BoundedExecutor): at most
`capacity` tasks run concurrently, tasks are started in FIFO submission
order when a slot is free, and each submitted task runs exactly once.

An execution is a fold of `stepFn` over an arbitrary list of scheduler
choices, so every interleaving — in particular every completion order of the
block transfers — corresponds to some schedule. -/

/-- Where the environment makes block `n`'s job fail, if anywhere.
`failEncrypt` only takes effect when an encryption key was supplied. -/
inductive Fate where
  | ok : Fate
  | failRead : Fate
  | failEncrypt : Fate
  | failPut : Fate
deriving DecidableEq

/-- Lifecycle position of one block job. -/
inductive Phase where
  | queued : Phase
  | wRead : Phase
  | wPut : Phase
  | wCommit : Phase
  | donePlain : Phase
  | doneCommitted : Phase
  | failedEarly : Phase
  | failedCommit : Phase
deriving DecidableEq

/-- The error object a failing operation rejects with. -/
inductive UErr where
  | read : Nat → UErr
  | encrypt : Nat → UErr
  | put : Nat → UErr
  | commit : Nat → UErr
deriving DecidableEq

/-- How the promise returned by `start` settled.  `resolvedUndef` models the
argument-less `resolve()` of part_000 line 183: the resolution value is
`undefined`. -/
inductive SettleRes where
  | resolvedUndef : SettleRes
  | rejected : UErr → SettleRes
deriving DecidableEq

/-- Environment of one upload run: the upload parameters plus the outcomes
the external collaborators (file reads, cipher, `putBlock`, `putBlockList`)
would produce.  `ivGen`/`atGen` supply the per-block IV (`crypto.randomBytes`)
and auth tag the cipher would return. -/
structure Env where
  fs : Nat
  bs : Nat
  key : Bool
  cap : Nat
  idPre : String
  fate : Nat → Fate
  commitOk : Bool
  ivGen : Nat → String
  atGen : Nat → String

/-- Effective block size of the run. -/
def Env.e (E : Env) : Nat := effBlockSize E.fs E.bs

/-- Total number of block jobs submitted by the loop of lines 193-195. -/
def Env.tb (E : Env) : Nat := numJobs E.fs E.bs

/-- `artifacts.range[nBlock] = `bytes=${from}-${to - 1}`` (line 143). -/
def rangeStr (E : Env) (n : Nat) : String :=
  "bytes=" ++ jsNatToString (blockFrom E.e n) ++ "-" ++
    jsNatToString (blockTo E.fs E.e n - 1)

/-- Mutable state shared by the jobs of one `start` call.  `successLog`
records one entry per `onSuccess` invocation; the entry is `true` iff the
payload contained the `artifacts` field (the code always passes
`{ artifacts }`, line 182).  `commitArg` is the `blockIDList` passed to
`putBlockList` by the (first) commit, `none` while no commit was invoked. -/
structure UState where
  started : Nat
  phase : Nat → Phase
  blockIDList : List String
  remaining : Nat
  aRange : Nat → Option String
  aIv : Nat → Option String
  aAt : Nat → Option String
  commitCount : Nat
  commitArg : Option (List String)
  errorLog : List UErr
  successLog : List Bool
  progressLog : List (Nat × Nat)
  settled : Option SettleRes

/-- State at the moment the submission loop has run (before any job
executes): counters initialised by `analizeFile` and the `Promise` executor. -/
def initState (E : Env) : UState where
  started := 0
  phase := fun _ => .queued
  blockIDList := []
  remaining := E.fs
  aRange := fun _ => none
  aIv := fun _ => none
  aAt := fun _ => none
  commitCount := 0
  commitArg := none
  errorLog := []
  successLog := []
  progressLog := []
  settled := none

/-- A scheduler choice: start the next queued job, or settle the pending
read / transfer / commit of job `n` (its next `await`). -/
inductive UStep where
  | start : UStep
  | readDone : Nat → UStep
  | putDone : Nat → UStep
  | commitDone : Nat → UStep

/-- Promise settle-once semantics: the first `resolve`/`reject` wins. -/
def settleWith (cur : Option SettleRes) (v : SettleRes) : Option SettleRes :=
  match cur with
  | none => some v
  | some w => some w

/-- Point update of the phase map. -/
def phaseUpd (f : Nat → Phase) (j : Nat) (v : Phase) : Nat → Phase :=
  fun m => if m = j then v else f m

/-- Point update of an artifact array (`artifacts.x[nBlock] = v`). -/
def artUpd (f : Nat → Option String) (j : Nat) (v : String) : Nat → Option String :=
  fun m => if m = j then some v else f m

theorem phaseUpd_self (f : Nat → Phase) (j : Nat) (v : Phase) :
    phaseUpd f j v j = v := if_pos rfl

theorem phaseUpd_other (f : Nat → Phase) {j : Nat} (v : Phase) {n : Nat}
    (h : n ≠ j) : phaseUpd f j v n = f n := if_neg h

theorem artUpd_other (f : Nat → Option String) {j : Nat} (v : String) {n : Nat}
    (h : n ≠ j) : artUpd f j v n = f n := if_neg h

/-- Phases occupying a `ThreadPool` slot (job started, promise not settled). -/
def Phase.isRunning : Phase → Bool
  | .wRead | .wPut | .wCommit => true
  | _ => false

/-- Phases in which the job has executed its decrement of
`totalRemainingBytes`. -/
def Phase.isDec : Phase → Bool
  | .wCommit | .donePlain | .doneCommitted | .failedCommit => true
  | _ => false

/-- Phases in which the job has invoked `commit()`. -/
def Phase.isCom : Phase → Bool
  | .wCommit | .doneCommitted | .failedCommit => true
  | _ => false

/-- Phases past a successful read (segment 1 completed without throwing). -/
def Phase.isPastRead : Phase → Bool
  | .wPut | .wCommit | .donePlain | .doneCommitted | .failedCommit => true
  | _ => false

/-- Terminal phases: the job's async function has returned or thrown. -/
def Phase.isTerminal : Phase → Bool
  | .donePlain | .doneCommitted | .failedEarly | .failedCommit => true
  | _ => false

/-- Failed phases (one `onError`/`reject` fired from this job). -/
def Phase.isFailed : Phase → Bool
  | .failedEarly | .failedCommit => true
  | _ => false

/-- Count of indices below `k` satisfying `f`. -/
def cnt (k : Nat) (f : Nat → Bool) : Nat := (List.range k).countP f

/-- Number of jobs that have decremented the shared counter. -/
def decCount (E : Env) (s : UState) : Nat := cnt E.tb (fun n => (s.phase n).isDec)

/-- Number of jobs that have invoked `commit()`. -/
def comCount (E : Env) (s : UState) : Nat := cnt E.tb (fun n => (s.phase n).isCom)

/-- Number of jobs whose `catch` block ran. -/
def failCount (E : Env) (s : UState) : Nat := cnt E.tb (fun n => (s.phase n).isFailed)

/-- Number of jobs that called `onSuccess` and `resolve`. -/
def dcCount (E : Env) (s : UState) : Nat :=
  cnt E.tb (fun n => s.phase n == Phase.doneCommitted)

/-- Number of jobs currently holding a pool slot. -/
def runningCount (E : Env) (s : UState) : Nat :=
  cnt E.tb (fun n => (s.phase n).isRunning)

/-- Does the environment make job `n` actually fail?  (An `failEncrypt` fate
is inert when no key is supplied: the encryption branch is skipped.) -/
def effFail (E : Env) (n : Nat) : Prop :=
  E.fate n = .failRead ∨ (E.key = true ∧ E.fate n = .failEncrypt) ∨ E.fate n = .failPut

instance (E : Env) (n : Nat) : Decidable (effFail E n) := by
  unfold effFail
  infer_instance

/-- The `catch` block of the job (part_000 lines 185-188): `onError(error)`
then `reject(error)`.  Note it does *not* remove the already-pushed entry
from `blockIDList`. -/
def failStep (s : UState) (n : Nat) (e : UErr) (ph : Phase) : UState :=
  { s with phase := phaseUpd s.phase n ph
           errorLog := s.errorLog ++ [e]
           settled := settleWith s.settled (.rejected e) }

/-- One atomic synchronous segment, chosen by the scheduler.  A choice whose
guard fails (job not at that await point, or no free pool slot) is a no-op. -/
def stepFn (E : Env) (s : UState) : UStep → UState
  | .start =>
    -- ThreadPool (spec §4.2): FIFO start of the next submitted job when
    -- fewer than `capacity` jobs are running.  Segment 0 of the job body:
    -- push the blockID, then suspend at `await readBlock`.
    if s.started < E.tb ∧ runningCount E s < E.cap then
      { s with started := s.started + 1
               phase := phaseUpd s.phase s.started .wRead
               blockIDList := s.blockIDList ++ [blockIDStr E.idPre s.started] }
    else s
  | .readDone n =>
    if s.phase n = .wRead then
      if E.fate n = .failRead then failStep s n (.read n) .failedEarly
      else
        -- line 143: range artifact recorded unconditionally after the read
        let s1 := { s with aRange := artUpd s.aRange n (rangeStr E n) }
        if E.key then
          if E.fate n = .failEncrypt then failStep s1 n (.encrypt n) .failedEarly
          else
            { s1 with
              aIv := artUpd s1.aIv n (E.ivGen n)
              aAt := artUpd s1.aAt n (E.atGen n)
              phase := phaseUpd s1.phase n .wPut }
        else { s1 with phase := phaseUpd s1.phase n .wPut }
    else s
  | .putDone n =>
    if s.phase n = .wPut then
      if E.fate n = .failPut then failStep s n (.put n) .failedEarly
      else
        -- lines 167-177: progress, decrement-and-clamp, zero check.
        -- Nat truncated subtraction is exactly decrement-then-clamp-at-0.
        if s.remaining - E.e = 0 then
          { s with remaining := s.remaining - E.e
                   phase := phaseUpd s.phase n .wCommit
                   commitCount := s.commitCount + 1
                   commitArg := some s.blockIDList }
        else
          { s with remaining := s.remaining - E.e
                   phase := phaseUpd s.phase n .donePlain
                   progressLog := s.progressLog ++ [(n + 1, E.tb)] }
    else s
  | .commitDone n =>
    if s.phase n = .wCommit then
      if E.commitOk then
        -- lines 179-184: onProgress, then the second zero check guards
        -- onSuccess({artifacts}) and resolve().
        if s.remaining = 0 then
          { s with progressLog := s.progressLog ++ [(n + 1, E.tb)]
                   successLog := s.successLog ++ [true]
                   settled := settleWith s.settled .resolvedUndef
                   phase := phaseUpd s.phase n .doneCommitted }
        else
          { s with progressLog := s.progressLog ++ [(n + 1, E.tb)]
                   phase := phaseUpd s.phase n .doneCommitted }
      else failStep s n (.commit n) .failedCommit
    else s

/-- Execution of `start`: fold the scheduler's choices from the initial
state. -/
def execU (E : Env) (sched : List UStep) : UState :=
  sched.foldl (stepFn E) (initState E)

/-- A schedule is complete when every submitted job has terminated. -/
def completeRun (E : Env) (s : UState) : Prop :=
  ∀ n, n < E.tb → (s.phase n).isTerminal = true

/-! ### Counting helpers -/

theorem cnt_succ (k : Nat) (f : Nat → Bool) :
    cnt (k + 1) f = cnt k f + (if f k then 1 else 0) := by
  unfold cnt
  rw [List.range_succ, List.countP_append, List.countP_cons, List.countP_nil]
  split <;> simp_all

theorem cnt_le (k : Nat) (f : Nat → Bool) : cnt k f ≤ k := by
  induction k with
  | zero => rfl
  | succ k ih => rw [cnt_succ]; split <;> omega

theorem cnt_congr {k : Nat} {f g : Nat → Bool} (h : ∀ n, n < k → f n = g n) :
    cnt k f = cnt k g := by
  induction k with
  | zero => rfl
  | succ k ih =>
    rw [cnt_succ, cnt_succ, h k (by omega), ih (fun n hn => h n (by omega))]

theorem cnt_point {k : Nat} {f g : Nat → Bool} {j : Nat} (hj : j < k)
    (h : ∀ n, n ≠ j → f n = g n) :
    cnt k g + (if f j then 1 else 0) = cnt k f + (if g j then 1 else 0) := by
  induction k with
  | zero => omega
  | succ k ih =>
    rw [cnt_succ, cnt_succ]
    by_cases hjk : j = k
    · subst hjk
      rw [cnt_congr (g := f) (fun n hn => (h n (by omega)).symm)]
      omega
    · rw [h k (by omega)]
      have := ih (by omega)
      split <;> omega

theorem cnt_eq_iff_all {k : Nat} {f : Nat → Bool} :
    cnt k f = k ↔ ∀ n, n < k → f n = true := by
  constructor
  · induction k with
    | zero => intro _ n hn; omega
    | succ k ih =>
      rw [cnt_succ]
      intro h n hn
      have hle := cnt_le k f
      have hfk : f k = true := by
        by_contra hc
        rw [if_neg (by simp_all)] at h
        omega
      rw [hfk, if_pos rfl] at h
      rcases Nat.lt_succ_iff_lt_or_eq.mp hn with hn | rfl
      · exact ih (by omega) n hn
      · exact hfk
  · intro h
    induction k with
    | zero => rfl
    | succ k ih =>
      rw [cnt_succ, h k (by omega), if_pos rfl, ih (fun n hn => h n (by omega))]

theorem cnt_pos_iff {k : Nat} {f : Nat → Bool} :
    0 < cnt k f ↔ ∃ n, n < k ∧ f n = true := by
  induction k with
  | zero => simp [cnt]
  | succ k ih =>
    rw [cnt_succ]
    constructor
    · intro h
      by_cases hfk : f k = true
      · exact ⟨k, by omega, hfk⟩
      · rw [if_neg (by simp_all)] at h
        obtain ⟨n, hn, hfn⟩ := ih.mp (by omega)
        exact ⟨n, by omega, hfn⟩
    · rintro ⟨n, hn, hfn⟩
      rcases Nat.lt_succ_iff_lt_or_eq.mp hn with hn | rfl
      · have := ih.mpr ⟨n, hn, hfn⟩
        omega
      · rw [hfn, if_pos rfl]
        omega

theorem cnt_mono {k : Nat} {f g : Nat → Bool} (h : ∀ n, f n = true → g n = true) :
    cnt k f ≤ cnt k g := by
  induction k with
  | zero => exact Nat.le.refl
  | succ k ih =>
    rw [cnt_succ, cnt_succ]
    by_cases hfk : f k = true
    · rw [hfk, if_pos rfl, h k hfk, if_pos rfl]
      omega
    · rw [if_neg (by simp_all)]
      split <;> omega

theorem cnt_two {k : Nat} {f : Nat → Bool} {i j : Nat} (hi : i < k) (hj : j < k)
    (hij : i ≠ j) (hfi : f i = true) (hfj : f j = true) : 2 ≤ cnt k f := by
  induction k with
  | zero => omega
  | succ k ih =>
    rw [cnt_succ]
    by_cases hik : i = k
    · have hfk : f k = true := hik ▸ hfi
      rw [hfk, if_pos rfl]
      have : 0 < cnt k f := cnt_pos_iff.mpr ⟨j, by omega, hfj⟩
      omega
    · by_cases hjk : j = k
      · have hfk : f k = true := hjk ▸ hfj
        rw [hfk, if_pos rfl]
        have : 0 < cnt k f := cnt_pos_iff.mpr ⟨i, by omega, hfi⟩
        omega
      · have := ih (by omega) (by omega)
        split <;> omega

/-! ### The execution invariant -/

theorem numJobs_bounds_of_e_pos {fs bs : Nat} (he : 0 < effBlockSize fs bs) :
    fs ≤ numJobs fs bs * effBlockSize fs bs ∧
      numJobs fs bs * effBlockSize fs bs < fs + effBlockSize fs bs := by
  rw [numJobs_eq_ceil he]
  exact ceilDiv_bounds he

/-- With `k` jobs having decremented (`k ≤ tb`), the clamped counter
`fs - k*e` is zero exactly when `k = tb`: the job that performs the `tb`-th
decrement, and only that job, sees zero. -/
theorem remaining_zero_iff (E : Env) {k : Nat} (hk : k ≤ E.tb) (htb : 0 < E.tb) :
    (E.fs - k * E.e = 0 ↔ k = E.tb) := by
  have hk' : k ≤ numJobs E.fs E.bs := hk
  have htb' : 0 < numJobs E.fs E.bs := htb
  obtain ⟨hfs, he⟩ := pos_of_numJobs_pos htb'
  obtain ⟨hb1, hb2⟩ := numJobs_bounds_of_e_pos he
  show E.fs - k * effBlockSize E.fs E.bs = 0 ↔ k = numJobs E.fs E.bs
  constructor
  · intro h0
    by_contra hne
    have hklt : k < numJobs E.fs E.bs := by omega
    have h1 : k * effBlockSize E.fs E.bs ≤
        (numJobs E.fs E.bs - 1) * effBlockSize E.fs E.bs :=
      Nat.mul_le_mul_right _ (by omega)
    have h2 : (numJobs E.fs E.bs - 1) * effBlockSize E.fs E.bs + effBlockSize E.fs E.bs
        = numJobs E.fs E.bs * effBlockSize E.fs E.bs := by
      cases hclass : numJobs E.fs E.bs with
      | zero => exact absurd htb' (by omega)
      | succ m => rw [Nat.succ_sub_one, Nat.succ_mul]
    omega
  · intro h
    subst h
    omega

/-- States reachable by `execU` satisfy this invariant: the structural facts
about phases, the shared counters, the artifact maps, the logs and the
settled result that the claim theorems read off at the end of a run. -/
structure Inv (E : Env) (s : UState) : Prop where
  hstart : s.started ≤ E.tb
  hq : ∀ n, s.started ≤ n → s.phase n = .queued
  hlist : s.blockIDList = (List.range s.started).map (blockIDStr E.idPre)
  hrem : s.remaining = E.fs - decCount E s * E.e
  hf1 : ∀ n, (s.phase n).isPastRead = true →
    E.fate n ≠ .failRead ∧ ¬(E.key = true ∧ E.fate n = .failEncrypt)
  hf2 : ∀ n, (s.phase n).isDec = true → ¬ effFail E n
  hfe : ∀ n, s.phase n = .failedEarly → effFail E n
  hfc : ∀ n, s.phase n = .failedCommit → E.commitOk = false
  hcc : s.commitCount = comCount E s
  hcf : comCount E s = if decCount E s = E.tb ∧ 0 < E.tb then 1 else 0
  herr : s.errorLog.length = failCount E s
  hsl : s.successLog = List.replicate (dcCount E s) true
  hst1 : s.settled = none → s.errorLog = [] ∧ s.successLog = []
  hst2 : ∀ er, s.settled = some (.rejected er) → s.errorLog.head? = some er
  hst3 : s.settled = some .resolvedUndef → s.successLog ≠ []
  hca0 : comCount E s = 0 → s.commitArg = none
  hca1 : 0 < comCount E s → s.commitArg = some ((List.range E.tb).map (blockIDStr E.idPre))
  hrg : ∀ n, (s.phase n).isPastRead = true → s.aRange n = some (rangeStr E n)
  hiv0 : E.key = false → ∀ n, s.aIv n = none ∧ s.aAt n = none
  hivk : E.key = true → ∀ n, (s.phase n).isPastRead = true →
    s.aIv n = some (E.ivGen n) ∧ s.aAt n = some (E.atGen n)

theorem cnt_of_all_false {k : Nat} {f : Nat → Bool} (h : ∀ n, n < k → f n = false) :
    cnt k f = 0 := by
  by_contra hc
  obtain ⟨n, hn, hfn⟩ := (cnt_pos_iff (k := k) (f := f)).mp (by omega)
  rw [h n hn] at hfn
  exact Bool.false_ne_true hfn

theorem inv_init (E : Env) : Inv E (initState E) := by
  have hdec : decCount E (initState E) = 0 := cnt_of_all_false (fun n _ => rfl)
  have hcom : comCount E (initState E) = 0 := cnt_of_all_false (fun n _ => rfl)
  have hfail : failCount E (initState E) = 0 := cnt_of_all_false (fun n _ => rfl)
  have hdc : dcCount E (initState E) = 0 := cnt_of_all_false (fun n _ => rfl)
  refine ⟨?_, ?_, ?_, ?_, ?_, ?_, ?_, ?_, ?_, ?_, ?_, ?_, ?_, ?_, ?_, ?_, ?_, ?_, ?_, ?_⟩
  · exact Nat.zero_le _
  · intro n _; rfl
  · rfl
  · rw [hdec]
    show E.fs = E.fs - 0 * E.e
    omega
  · intro n h; exact absurd h (by simp [initState, Phase.isPastRead])
  · intro n h; exact absurd h (by simp [initState, Phase.isDec])
  · intro n h; exact absurd h (by simp [initState])
  · intro n h; exact absurd h (by simp [initState])
  · rw [hcom]; rfl
  · rw [hcom, hdec]
    split
    · rename_i hcond
      omega
    · rfl
  · rw [hfail]; rfl
  · rw [hdc]; rfl
  · intro _; exact ⟨rfl, rfl⟩
  · intro er h; exact absurd h (by simp [initState])
  · intro h; exact absurd h (by simp [initState])
  · intro _; rfl
  · intro h; rw [hcom] at h; omega
  · intro n h; exact absurd h (by simp [initState, Phase.isPastRead])
  · intro _ n; exact ⟨rfl, rfl⟩
  · intro _ n h; exact absurd h (by simp [initState, Phase.isPastRead])

/-- `cnt` across a single-point phase update. -/
theorem cnt_phaseUpd {k : Nat} {f : Nat → Phase} {j : Nat} {v : Phase}
    (p : Phase → Bool) (hj : j < k) :
    cnt k (fun n => p (phaseUpd f j v n)) + (if p (f j) then 1 else 0)
      = cnt k (fun n => p (f n)) + (if p v then 1 else 0) := by
  have h := cnt_point (f := fun n => p (f n))
    (g := fun n => p (phaseUpd f j v n)) hj
    (fun n hn => by
      show p (f n) = p (phaseUpd f j v n)
      rw [phaseUpd_other f v hn])
  have h' : cnt k (fun n => p (phaseUpd f j v n)) +
        (if p (f j) then 1 else 0)
      = cnt k (fun n => p (f n)) + (if p (phaseUpd f j v j) then 1 else 0) := h
  rw [phaseUpd_self] at h'
  exact h'

/-- unchanged-count version. -/
theorem cnt_phaseUpd_same {k : Nat} {f : Nat → Phase} {j : Nat} {v : Phase}
    (p : Phase → Bool) (hsame : p (f j) = p v) :
    cnt k (fun n => p (phaseUpd f j v n)) = cnt k (fun n => p (f n)) :=
  cnt_congr (fun n _ => by
    show p (phaseUpd f j v n) = p (f n)
    by_cases hnj : n = j
    · rw [hnj, phaseUpd_self, ← hsame]
    · rw [phaseUpd_other f v hnj])

theorem inv_start (E : Env) (s : UState) (inv : Inv E s) :
    Inv E (stepFn E s .start) := by
  obtain ⟨hstart, hq, hlist, hrem, hf1, hf2, hfe, hfc, hcc, hcf, herr, hsl, hst1, hst2,
    hst3, hca0, hca1, hrg, hiv0, hivk⟩ := inv
  simp only [stepFn]
  by_cases hg : s.started < E.tb ∧ runningCount E s < E.cap
  · rw [if_pos hg]
    have hqj : s.phase s.started = .queued := hq s.started le_rfl
    have hdec : cnt E.tb (fun n => (phaseUpd s.phase s.started Phase.wRead n).isDec)
        = decCount E s := cnt_phaseUpd_same _ (by rw [hqj]; rfl)
    have hcom : cnt E.tb (fun n => (phaseUpd s.phase s.started Phase.wRead n).isCom)
        = comCount E s := cnt_phaseUpd_same _ (by rw [hqj]; rfl)
    have hfailc : cnt E.tb (fun n => (phaseUpd s.phase s.started Phase.wRead n).isFailed)
        = failCount E s := cnt_phaseUpd_same _ (by rw [hqj]; rfl)
    have hdcc : cnt E.tb
        (fun n => phaseUpd s.phase s.started Phase.wRead n == Phase.doneCommitted)
        = dcCount E s := cnt_phaseUpd_same (fun p => p == Phase.doneCommitted) (by rw [hqj]; rfl)
    refine ⟨?_, ?_, ?_, ?_, ?_, ?_, ?_, ?_, ?_, ?_, ?_, ?_, ?_, ?_, ?_, ?_, ?_, ?_, ?_, ?_⟩
    · show s.started + 1 ≤ E.tb
      omega
    · intro n hn
      replace hn : s.started + 1 ≤ n := hn
      show phaseUpd s.phase s.started Phase.wRead n = Phase.queued
      rw [phaseUpd_other _ _ (show n ≠ s.started by omega)]
      exact hq n (by omega)
    · show s.blockIDList ++ [blockIDStr E.idPre s.started]
        = (List.range (s.started + 1)).map (blockIDStr E.idPre)
      rw [List.range_succ, List.map_append, List.map_singleton, hlist]
    · show s.remaining =
        E.fs - cnt E.tb (fun n => (phaseUpd s.phase s.started Phase.wRead n).isDec) * E.e
      rw [hdec]
      exact hrem
    · intro n h
      replace h : (phaseUpd s.phase s.started Phase.wRead n).isPastRead = true := h
      by_cases hnj : n = s.started
      · rw [hnj, phaseUpd_self] at h
        exact absurd h (by decide)
      · rw [phaseUpd_other _ _ hnj] at h
        exact hf1 n h
    · intro n h
      replace h : (phaseUpd s.phase s.started Phase.wRead n).isDec = true := h
      by_cases hnj : n = s.started
      · rw [hnj, phaseUpd_self] at h
        exact absurd h (by decide)
      · rw [phaseUpd_other _ _ hnj] at h
        exact hf2 n h
    · intro n h
      replace h : phaseUpd s.phase s.started Phase.wRead n = Phase.failedEarly := h
      by_cases hnj : n = s.started
      · rw [hnj, phaseUpd_self] at h
        exact absurd h (by decide)
      · rw [phaseUpd_other _ _ hnj] at h
        exact hfe n h
    · intro n h
      replace h : phaseUpd s.phase s.started Phase.wRead n = Phase.failedCommit := h
      by_cases hnj : n = s.started
      · rw [hnj, phaseUpd_self] at h
        exact absurd h (by decide)
      · rw [phaseUpd_other _ _ hnj] at h
        exact hfc n h
    · show s.commitCount =
        cnt E.tb (fun n => (phaseUpd s.phase s.started Phase.wRead n).isCom)
      rw [hcom]
      exact hcc
    · show cnt E.tb (fun n => (phaseUpd s.phase s.started Phase.wRead n).isCom) =
        if cnt E.tb (fun n => (phaseUpd s.phase s.started Phase.wRead n).isDec) = E.tb ∧
          0 < E.tb then 1 else 0
      rw [hcom, hdec]
      exact hcf
    · show s.errorLog.length =
        cnt E.tb (fun n => (phaseUpd s.phase s.started Phase.wRead n).isFailed)
      rw [hfailc]
      exact herr
    · show s.successLog = List.replicate (cnt E.tb
        (fun n => phaseUpd s.phase s.started Phase.wRead n == Phase.doneCommitted)) true
      rw [hdcc]
      exact hsl
    · exact hst1
    · exact hst2
    · exact hst3
    · intro h
      replace h : cnt E.tb (fun n => (phaseUpd s.phase s.started Phase.wRead n).isCom) = 0 := h
      rw [hcom] at h
      exact hca0 h
    · intro h
      replace h : 0 < cnt E.tb (fun n => (phaseUpd s.phase s.started Phase.wRead n).isCom) := h
      rw [hcom] at h
      exact hca1 h
    · intro n h
      replace h : (phaseUpd s.phase s.started Phase.wRead n).isPastRead = true := h
      by_cases hnj : n = s.started
      · rw [hnj, phaseUpd_self] at h
        exact absurd h (by decide)
      · rw [phaseUpd_other _ _ hnj] at h
        exact hrg n h
    · exact hiv0
    · intro hkey n h
      replace h : (phaseUpd s.phase s.started Phase.wRead n).isPastRead = true := h
      by_cases hnj : n = s.started
      · rw [hnj, phaseUpd_self] at h
        exact absurd h (by decide)
      · rw [phaseUpd_other _ _ hnj] at h
        exact hivk hkey n h
  · rw [if_neg hg]
    exact ⟨hstart, hq, hlist, hrem, hf1, hf2, hfe, hfc, hcc, hcf, herr, hsl, hst1, hst2,
      hst3, hca0, hca1, hrg, hiv0, hivk⟩

theorem head?_append_of_head? {α : Type} {l : List α} (l' : List α) {a : α}
    (h : l.head? = some a) : (l ++ l').head? = some a := by
  cases l with
  | nil => simp at h
  | cons x xs => simpa using h

/-- Recording `artifacts.range[j]` (part_000 line 143) preserves the
invariant. -/
theorem inv_setRange (E : Env) (s : UState) (inv : Inv E s) (j : Nat) :
    Inv E { s with aRange := artUpd s.aRange j (rangeStr E j) } := by
  obtain ⟨hstart, hq, hlist, hrem, hf1, hf2, hfe, hfc, hcc, hcf, herr, hsl, hst1, hst2,
    hst3, hca0, hca1, hrg, hiv0, hivk⟩ := inv
  refine ⟨hstart, hq, hlist, hrem, hf1, hf2, hfe, hfc, hcc, hcf, herr, hsl, hst1, hst2,
    hst3, hca0, hca1, ?_, hiv0, hivk⟩
  intro n h
  show artUpd s.aRange j (rangeStr E j) n = some (rangeStr E n)
  by_cases hnj : n = j
  · rw [hnj]
    show (if j = j then some (rangeStr E j) else s.aRange j) = some (rangeStr E j)
    rw [if_pos rfl]
  · rw [artUpd_other _ _ hnj]
    exact hrg n h

/-- The `catch` block (part_000 lines 185-188) preserves the invariant, for a
job at any of its three await points moving to its failed phase. -/
theorem inv_failStep (E : Env) (s : UState) (inv : Inv E s) (j : Nat) (e : UErr)
    (v : Phase)
    (hrun : (s.phase j).isRunning = true)
    (hsameDec : (s.phase j).isDec = v.isDec)
    (hsameCom : (s.phase j).isCom = v.isCom)
    (holdFailed : (s.phase j).isFailed = false)
    (hvFailed : v.isFailed = true)
    (hPastImp : v.isPastRead = true → (s.phase j).isPastRead = true)
    (hsameDC : ((s.phase j) == Phase.doneCommitted) = (v == Phase.doneCommitted))
    (hfeNew : v = Phase.failedEarly → effFail E j)
    (hfcNew : v = Phase.failedCommit → E.commitOk = false) :
    Inv E (failStep s j e v) := by
  obtain ⟨hstart, hq, hlist, hrem, hf1, hf2, hfe, hfc, hcc, hcf, herr, hsl, hst1, hst2,
    hst3, hca0, hca1, hrg, hiv0, hivk⟩ := inv
  have hjlt : j < s.started := by
    by_contra hc
    rw [hq j (by omega)] at hrun
    exact absurd hrun (by decide)
  have hj : j < E.tb := by omega
  have hdec : cnt E.tb (fun n => (phaseUpd s.phase j v n).isDec) = decCount E s :=
    cnt_phaseUpd_same _ hsameDec
  have hcom : cnt E.tb (fun n => (phaseUpd s.phase j v n).isCom) = comCount E s :=
    cnt_phaseUpd_same _ hsameCom
  have hdcc : cnt E.tb (fun n => phaseUpd s.phase j v n == Phase.doneCommitted)
      = dcCount E s := cnt_phaseUpd_same (fun p => p == Phase.doneCommitted) hsameDC
  have hfailc : cnt E.tb (fun n => (phaseUpd s.phase j v n).isFailed)
      = failCount E s + 1 := by
    have h := cnt_phaseUpd (f := s.phase) (j := j) (v := v) Phase.isFailed hj
    rw [holdFailed, hvFailed] at h
    norm_num at h
    exact h
  refine ⟨?_, ?_, ?_, ?_, ?_, ?_, ?_, ?_, ?_, ?_, ?_, ?_, ?_, ?_, ?_, ?_, ?_, ?_, ?_, ?_⟩
  · exact hstart
  · intro n hn
    replace hn : s.started ≤ n := hn
    show phaseUpd s.phase j v n = Phase.queued
    rw [phaseUpd_other _ _ (show n ≠ j by omega)]
    exact hq n hn
  · exact hlist
  · show s.remaining = E.fs - cnt E.tb (fun n => (phaseUpd s.phase j v n).isDec) * E.e
    rw [hdec]
    exact hrem
  · intro n h
    replace h : (phaseUpd s.phase j v n).isPastRead = true := h
    by_cases hnj : n = j
    · rw [hnj, phaseUpd_self] at h
      rw [hnj]
      exact hf1 j (hPastImp h)
    · rw [phaseUpd_other _ _ hnj] at h
      exact hf1 n h
  · intro n h
    replace h : (phaseUpd s.phase j v n).isDec = true := h
    by_cases hnj : n = j
    · rw [hnj, phaseUpd_self] at h
      rw [hnj]
      exact hf2 j (by rw [hsameDec]; exact h)
    · rw [phaseUpd_other _ _ hnj] at h
      exact hf2 n h
  · intro n h
    replace h : phaseUpd s.phase j v n = Phase.failedEarly := h
    by_cases hnj : n = j
    · rw [hnj, phaseUpd_self] at h
      rw [hnj]
      exact hfeNew h
    · rw [phaseUpd_other _ _ hnj] at h
      exact hfe n h
  · intro n h
    replace h : phaseUpd s.phase j v n = Phase.failedCommit := h
    by_cases hnj : n = j
    · rw [hnj, phaseUpd_self] at h
      exact hfcNew h
    · rw [phaseUpd_other _ _ hnj] at h
      exact hfc n h
  · show s.commitCount = cnt E.tb (fun n => (phaseUpd s.phase j v n).isCom)
    rw [hcom]
    exact hcc
  · show cnt E.tb (fun n => (phaseUpd s.phase j v n).isCom) =
      if cnt E.tb (fun n => (phaseUpd s.phase j v n).isDec) = E.tb ∧ 0 < E.tb
      then 1 else 0
    rw [hcom, hdec]
    exact hcf
  · show (s.errorLog ++ [e]).length = cnt E.tb (fun n => (phaseUpd s.phase j v n).isFailed)
    rw [hfailc, List.length_append, herr, List.length_singleton]
  · show s.successLog = List.replicate
      (cnt E.tb (fun n => phaseUpd s.phase j v n == Phase.doneCommitted)) true
    rw [hdcc]
    exact hsl
  · intro h
    replace h : settleWith s.settled (.rejected e) = none := h
    rcases hset : s.settled with _ | w
    · rw [hset] at h
      exact absurd h (by simp [settleWith])
    · rw [hset] at h
      exact absurd h (by simp [settleWith])
  · intro er h
    replace h : settleWith s.settled (.rejected e) = some (.rejected er) := h
    show (s.errorLog ++ [e]).head? = some er
    rcases hset : s.settled with _ | w
    · rw [hset] at h
      simp only [settleWith, Option.some.injEq] at h
      obtain ⟨hlog, -⟩ := hst1 hset
      rw [hlog, List.nil_append]
      rw [show er = e by cases h; rfl]
      rfl
    · rw [hset] at h
      simp only [settleWith, Option.some.injEq] at h
      exact head?_append_of_head? [e] (hst2 er (by rw [hset, h]))
  · intro h
    replace h : settleWith s.settled (.rejected e) = some .resolvedUndef := h
    show s.successLog ≠ []
    rcases hset : s.settled with _ | w
    · rw [hset] at h
      exact absurd h (by simp [settleWith])
    · rw [hset] at h
      simp only [settleWith, Option.some.injEq] at h
      exact hst3 (by rw [hset, h])
  · intro h
    replace h : cnt E.tb (fun n => (phaseUpd s.phase j v n).isCom) = 0 := h
    rw [hcom] at h
    exact hca0 h
  · intro h
    replace h : 0 < cnt E.tb (fun n => (phaseUpd s.phase j v n).isCom) := h
    rw [hcom] at h
    exact hca1 h
  · intro n h
    replace h : (phaseUpd s.phase j v n).isPastRead = true := h
    by_cases hnj : n = j
    · rw [hnj, phaseUpd_self] at h
      rw [hnj]
      exact hrg j (hPastImp h)
    · rw [phaseUpd_other _ _ hnj] at h
      exact hrg n h
  · exact hiv0
  · intro hkey n h
    replace h : (phaseUpd s.phase j v n).isPastRead = true := h
    by_cases hnj : n = j
    · rw [hnj, phaseUpd_self] at h
      rw [hnj]
      exact hivk hkey j (hPastImp h)
    · rw [phaseUpd_other _ _ hnj] at h
      exact hivk hkey n h

/-- Segment 1 of a job that passes read (and, when a key is supplied,
encryption): record the artifacts and advance to the pending transfer. -/
theorem inv_toWPut (E : Env) (s : UState) (inv : Inv E s) (j : Nat)
    (hph : s.phase j = .wRead)
    (hnr : E.fate j ≠ .failRead)
    (hne : ¬(E.key = true ∧ E.fate j = .failEncrypt))
    (newIv newAt : Nat → Option String)
    (hIv0 : E.key = false → newIv = s.aIv ∧ newAt = s.aAt)
    (hIvk : E.key = true → (∀ n, n ≠ j → newIv n = s.aIv n ∧ newAt n = s.aAt n) ∧
        newIv j = some (E.ivGen j) ∧ newAt j = some (E.atGen j)) :
    Inv E { s with aRange := artUpd s.aRange j (rangeStr E j)
                   aIv := newIv
                   aAt := newAt
                   phase := phaseUpd s.phase j .wPut } := by
  obtain ⟨hstart, hq, hlist, hrem, hf1, hf2, hfe, hfc, hcc, hcf, herr, hsl, hst1, hst2,
    hst3, hca0, hca1, hrg, hiv0, hivk⟩ := inv
  have hjlt : j < s.started := by
    by_contra hc
    rw [hq j (by omega)] at hph
    exact absurd hph (by decide)
  have hdec : cnt E.tb (fun n => (phaseUpd s.phase j Phase.wPut n).isDec)
      = decCount E s := cnt_phaseUpd_same _ (by rw [hph]; rfl)
  have hcom : cnt E.tb (fun n => (phaseUpd s.phase j Phase.wPut n).isCom)
      = comCount E s := cnt_phaseUpd_same _ (by rw [hph]; rfl)
  have hfailc : cnt E.tb (fun n => (phaseUpd s.phase j Phase.wPut n).isFailed)
      = failCount E s := cnt_phaseUpd_same _ (by rw [hph]; rfl)
  have hdcc : cnt E.tb (fun n => phaseUpd s.phase j Phase.wPut n == Phase.doneCommitted)
      = dcCount E s := cnt_phaseUpd_same (fun p => p == Phase.doneCommitted) (by rw [hph]; rfl)
  refine ⟨?_, ?_, ?_, ?_, ?_, ?_, ?_, ?_, ?_, ?_, ?_, ?_, ?_, ?_, ?_, ?_, ?_, ?_, ?_, ?_⟩
  · exact hstart
  · intro n hn
    replace hn : s.started ≤ n := hn
    show phaseUpd s.phase j Phase.wPut n = Phase.queued
    rw [phaseUpd_other _ _ (show n ≠ j by omega)]
    exact hq n hn
  · exact hlist
  · show s.remaining = E.fs - cnt E.tb (fun n => (phaseUpd s.phase j Phase.wPut n).isDec) * E.e
    rw [hdec]
    exact hrem
  · intro n h
    replace h : (phaseUpd s.phase j Phase.wPut n).isPastRead = true := h
    by_cases hnj : n = j
    · rw [hnj]
      exact ⟨hnr, hne⟩
    · rw [phaseUpd_other _ _ hnj] at h
      exact hf1 n h
  · intro n h
    replace h : (phaseUpd s.phase j Phase.wPut n).isDec = true := h
    by_cases hnj : n = j
    · rw [hnj, phaseUpd_self] at h
      exact absurd h (by decide)
    · rw [phaseUpd_other _ _ hnj] at h
      exact hf2 n h
  · intro n h
    replace h : phaseUpd s.phase j Phase.wPut n = Phase.failedEarly := h
    by_cases hnj : n = j
    · rw [hnj, phaseUpd_self] at h
      exact absurd h (by decide)
    · rw [phaseUpd_other _ _ hnj] at h
      exact hfe n h
  · intro n h
    replace h : phaseUpd s.phase j Phase.wPut n = Phase.failedCommit := h
    by_cases hnj : n = j
    · rw [hnj, phaseUpd_self] at h
      exact absurd h (by decide)
    · rw [phaseUpd_other _ _ hnj] at h
      exact hfc n h
  · show s.commitCount = cnt E.tb (fun n => (phaseUpd s.phase j Phase.wPut n).isCom)
    rw [hcom]
    exact hcc
  · show cnt E.tb (fun n => (phaseUpd s.phase j Phase.wPut n).isCom) =
      if cnt E.tb (fun n => (phaseUpd s.phase j Phase.wPut n).isDec) = E.tb ∧ 0 < E.tb
      then 1 else 0
    rw [hcom, hdec]
    exact hcf
  · show s.errorLog.length = cnt E.tb (fun n => (phaseUpd s.phase j Phase.wPut n).isFailed)
    rw [hfailc]
    exact herr
  · show s.successLog = List.replicate
      (cnt E.tb (fun n => phaseUpd s.phase j Phase.wPut n == Phase.doneCommitted)) true
    rw [hdcc]
    exact hsl
  · exact hst1
  · exact hst2
  · exact hst3
  · intro h
    replace h : cnt E.tb (fun n => (phaseUpd s.phase j Phase.wPut n).isCom) = 0 := h
    rw [hcom] at h
    exact hca0 h
  · intro h
    replace h : 0 < cnt E.tb (fun n => (phaseUpd s.phase j Phase.wPut n).isCom) := h
    rw [hcom] at h
    exact hca1 h
  · intro n h
    show artUpd s.aRange j (rangeStr E j) n = some (rangeStr E n)
    by_cases hnj : n = j
    · rw [hnj]
      show (if j = j then some (rangeStr E j) else s.aRange j) = some (rangeStr E j)
      rw [if_pos rfl]
    · rw [artUpd_other _ _ hnj]
      replace h : (phaseUpd s.phase j Phase.wPut n).isPastRead = true := h
      rw [phaseUpd_other _ _ hnj] at h
      exact hrg n h
  · intro hk n
    obtain ⟨h1, h2⟩ := hIv0 hk
    show newIv n = none ∧ newAt n = none
    rw [h1, h2]
    exact hiv0 hk n
  · intro hk n h
    obtain ⟨hother, hj1, hj2⟩ := hIvk hk
    replace h : (phaseUpd s.phase j Phase.wPut n).isPastRead = true := h
    show newIv n = some (E.ivGen n) ∧ newAt n = some (E.atGen n)
    by_cases hnj : n = j
    · rw [hnj, hj1, hj2]
      exact ⟨rfl, rfl⟩
    · rw [phaseUpd_other _ _ hnj] at h
      rw [(hother n hnj).1, (hother n hnj).2]
      exact hivk hk n h

/-- The `readDone` scheduler step preserves the invariant. -/
theorem inv_read (E : Env) (s : UState) (inv : Inv E s) (j : Nat) :
    Inv E (stepFn E s (.readDone j)) := by
  simp only [stepFn]
  by_cases hph : s.phase j = .wRead
  · rw [if_pos hph]
    by_cases hfr : E.fate j = .failRead
    · rw [if_pos hfr]
      exact inv_failStep E s inv j (.read j) .failedEarly
        (by rw [hph]; rfl) (by rw [hph]; rfl) (by rw [hph]; rfl) (by rw [hph]; rfl)
        rfl (fun h => absurd h (by decide)) (by rw [hph]; rfl)
        (fun _ => Or.inl hfr) (fun h => absurd h (by decide))
    · rw [if_neg hfr]
      by_cases hkey : E.key = true
      · rw [if_pos hkey]
        by_cases hfenc : E.fate j = .failEncrypt
        · rw [if_pos hfenc]
          exact inv_failStep E _ (inv_setRange E s inv j) j (.encrypt j) .failedEarly
            (by show (s.phase j).isRunning = true; rw [hph]; rfl)
            (by show (s.phase j).isDec = _; rw [hph]; rfl)
            (by show (s.phase j).isCom = _; rw [hph]; rfl)
            (by show (s.phase j).isFailed = false; rw [hph]; rfl)
            rfl (fun h => absurd h (by decide))
            (by show ((s.phase j) == Phase.doneCommitted) = _; rw [hph]; rfl)
            (fun _ => Or.inr (Or.inl ⟨hkey, hfenc⟩))
            (fun h => absurd h (by decide))
        · rw [if_neg hfenc]
          exact inv_toWPut E s inv j hph hfr
            (fun hc => hfenc hc.2)
            (artUpd s.aIv j (E.ivGen j)) (artUpd s.aAt j (E.atGen j))
            (fun hk0 => absurd hkey (by rw [hk0]; decide))
            (fun _ => ⟨fun n hn => ⟨artUpd_other _ _ hn, artUpd_other _ _ hn⟩,
              if_pos rfl, if_pos rfl⟩)
      · rw [if_neg hkey]
        exact inv_toWPut E s inv j hph hfr
          (fun hc => hkey hc.1)
          s.aIv s.aAt
          (fun _ => ⟨rfl, rfl⟩)
          (fun hk => absurd hk hkey)
  · rw [if_neg hph]
    exact inv

/-- `cnt` when the updated job enters the counted class. -/
theorem cnt_phaseUpd_flip {k : Nat} {f : Nat → Phase} {j : Nat} {v : Phase}
    (p : Phase → Bool) (hj : j < k)
    (hold : p (f j) = false) (hnew : p v = true) :
    cnt k (fun n => p (phaseUpd f j v n)) = cnt k (fun n => p (f n)) + 1 := by
  have h := cnt_phaseUpd (f := f) (j := j) (v := v) p hj
  rw [hold, hnew] at h
  simp at h
  exact h

/-- The `putDone` scheduler step preserves the invariant.  In particular a
transfer completion that drives the clamped byte counter to zero is the
`totalBlocks`-th one; it finds all jobs decremented, the commit counter at
zero, and the full `blockIDList`, and it alone invokes `commit()`. -/
theorem inv_put (E : Env) (s : UState) (inv : Inv E s) (j : Nat) :
    Inv E (stepFn E s (.putDone j)) := by
  simp only [stepFn]
  by_cases hph : s.phase j = .wPut
  case neg => rw [if_neg hph]; exact inv
  rw [if_pos hph]
  by_cases hfp : E.fate j = .failPut
  · rw [if_pos hfp]
    exact inv_failStep E s inv j (.put j) .failedEarly
      (by rw [hph]; rfl) (by rw [hph]; rfl) (by rw [hph]; rfl) (by rw [hph]; rfl)
      rfl (fun h => absurd h (by decide)) (by rw [hph]; rfl)
      (fun _ => Or.inr (Or.inr hfp)) (fun h => absurd h (by decide))
  rw [if_neg hfp]
  obtain ⟨hstart, hq, hlist, hrem, hf1, hf2, hfe, hfc, hcc, hcf, herr, hsl, hst1, hst2,
    hst3, hca0, hca1, hrg, hiv0, hivk⟩ := inv
  have hjlt : j < s.started := by
    by_contra hc
    rw [hq j (by omega)] at hph
    exact absurd hph (by decide)
  have hj : j < E.tb := by omega
  have htb0 : 0 < E.tb := by omega
  have hf1j := hf1 j (by rw [hph]; rfl)
  have heff : ¬ effFail E j := by
    rintro (h | h | h)
    · exact hf1j.1 h
    · exact hf1j.2 h
    · exact hfp h
  have hmul : (decCount E s + 1) * E.e = decCount E s * E.e + E.e := Nat.succ_mul _ _
  by_cases hz : s.remaining - E.e = 0
  · rw [if_pos hz]
    have hdecnew : cnt E.tb (fun n => (phaseUpd s.phase j Phase.wCommit n).isDec)
        = decCount E s + 1 := cnt_phaseUpd_flip _ hj (by rw [hph]; rfl) rfl
    have hcomnew : cnt E.tb (fun n => (phaseUpd s.phase j Phase.wCommit n).isCom)
        = comCount E s + 1 := cnt_phaseUpd_flip _ hj (by rw [hph]; rfl) rfl
    have hfailnew : cnt E.tb (fun n => (phaseUpd s.phase j Phase.wCommit n).isFailed)
        = failCount E s := cnt_phaseUpd_same _ (by rw [hph]; rfl)
    have hdcnew : cnt E.tb (fun n => phaseUpd s.phase j Phase.wCommit n == Phase.doneCommitted)
        = dcCount E s := cnt_phaseUpd_same (fun p => p == Phase.doneCommitted) (by rw [hph]; rfl)
    have hle : decCount E s + 1 ≤ E.tb := by
      rw [← hdecnew]
      exact cnt_le _ _
    have hrz : E.fs - (decCount E s + 1) * E.e = 0 := by omega
    have hktb : decCount E s + 1 = E.tb := (remaining_zero_iff E hle htb0).mp hrz
    have hcomz : comCount E s = 0 := by
      rw [hcf, if_neg]
      rintro ⟨h1, -⟩
      omega
    have hallstarted : s.started = E.tb := by
      have hall := (cnt_eq_iff_all
        (f := fun n => (phaseUpd s.phase j Phase.wCommit n).isDec)).mp
        (by rw [hdecnew, hktb])
      by_contra hc
      have hslt : s.started < E.tb := by omega
      have hqq := hall s.started hslt
      rw [phaseUpd_other _ _ (show s.started ≠ j by omega), hq s.started le_rfl] at hqq
      exact absurd hqq (by decide)
    refine ⟨?_, ?_, ?_, ?_, ?_, ?_, ?_, ?_, ?_, ?_, ?_, ?_, ?_, ?_, ?_, ?_, ?_, ?_, ?_, ?_⟩
    · exact hstart
    · intro n hn
      replace hn : s.started ≤ n := hn
      show phaseUpd s.phase j Phase.wCommit n = Phase.queued
      rw [phaseUpd_other _ _ (show n ≠ j by omega)]
      exact hq n hn
    · exact hlist
    · show s.remaining - E.e =
        E.fs - cnt E.tb (fun n => (phaseUpd s.phase j Phase.wCommit n).isDec) * E.e
      rw [hdecnew]
      omega
    · intro n h
      replace h : (phaseUpd s.phase j Phase.wCommit n).isPastRead = true := h
      by_cases hnj : n = j
      · rw [hnj]
        exact hf1j
      · rw [phaseUpd_other _ _ hnj] at h
        exact hf1 n h
    · intro n h
      replace h : (phaseUpd s.phase j Phase.wCommit n).isDec = true := h
      by_cases hnj : n = j
      · rw [hnj]
        exact heff
      · rw [phaseUpd_other _ _ hnj] at h
        exact hf2 n h
    · intro n h
      replace h : phaseUpd s.phase j Phase.wCommit n = Phase.failedEarly := h
      by_cases hnj : n = j
      · rw [hnj, phaseUpd_self] at h
        exact absurd h (by decide)
      · rw [phaseUpd_other _ _ hnj] at h
        exact hfe n h
    · intro n h
      replace h : phaseUpd s.phase j Phase.wCommit n = Phase.failedCommit := h
      by_cases hnj : n = j
      · rw [hnj, phaseUpd_self] at h
        exact absurd h (by decide)
      · rw [phaseUpd_other _ _ hnj] at h
        exact hfc n h
    · show s.commitCount + 1 = cnt E.tb (fun n => (phaseUpd s.phase j Phase.wCommit n).isCom)
      rw [hcomnew, hcc]
    · show cnt E.tb (fun n => (phaseUpd s.phase j Phase.wCommit n).isCom) =
        if cnt E.tb (fun n => (phaseUpd s.phase j Phase.wCommit n).isDec) = E.tb ∧ 0 < E.tb
        then 1 else 0
      rw [hcomnew, hdecnew, hcomz, if_pos ⟨hktb, htb0⟩]
    · show s.errorLog.length = cnt E.tb (fun n => (phaseUpd s.phase j Phase.wCommit n).isFailed)
      rw [hfailnew]
      exact herr
    · show s.successLog = List.replicate
        (cnt E.tb (fun n => phaseUpd s.phase j Phase.wCommit n == Phase.doneCommitted)) true
      rw [hdcnew]
      exact hsl
    · exact hst1
    · exact hst2
    · exact hst3
    · intro h
      replace h : cnt E.tb (fun n => (phaseUpd s.phase j Phase.wCommit n).isCom) = 0 := h
      rw [hcomnew] at h
      exact absurd h (by omega)
    · intro h
      show some s.blockIDList = some ((List.range E.tb).map (blockIDStr E.idPre))
      rw [hlist, hallstarted]
    · intro n h
      replace h : (phaseUpd s.phase j Phase.wCommit n).isPastRead = true := h
      by_cases hnj : n = j
      · rw [hnj]
        exact hrg j (by rw [hph]; rfl)
      · rw [phaseUpd_other _ _ hnj] at h
        exact hrg n h
    · exact hiv0
    · intro hk n h
      replace h : (phaseUpd s.phase j Phase.wCommit n).isPastRead = true := h
      by_cases hnj : n = j
      · rw [hnj]
        exact hivk hk j (by rw [hph]; rfl)
      · rw [phaseUpd_other _ _ hnj] at h
        exact hivk hk n h
  · rw [if_neg hz]
    have hdecnew : cnt E.tb (fun n => (phaseUpd s.phase j Phase.donePlain n).isDec)
        = decCount E s + 1 := cnt_phaseUpd_flip _ hj (by rw [hph]; rfl) rfl
    have hcomnew : cnt E.tb (fun n => (phaseUpd s.phase j Phase.donePlain n).isCom)
        = comCount E s := cnt_phaseUpd_same _ (by rw [hph]; rfl)
    have hfailnew : cnt E.tb (fun n => (phaseUpd s.phase j Phase.donePlain n).isFailed)
        = failCount E s := cnt_phaseUpd_same _ (by rw [hph]; rfl)
    have hdcnew : cnt E.tb (fun n => phaseUpd s.phase j Phase.donePlain n == Phase.doneCommitted)
        = dcCount E s := cnt_phaseUpd_same (fun p => p == Phase.doneCommitted) (by rw [hph]; rfl)
    have hle : decCount E s + 1 ≤ E.tb := by
      rw [← hdecnew]
      exact cnt_le _ _
    have hcomz : comCount E s = 0 := by
      rw [hcf, if_neg]
      rintro ⟨h1, -⟩
      omega
    refine ⟨?_, ?_, ?_, ?_, ?_, ?_, ?_, ?_, ?_, ?_, ?_, ?_, ?_, ?_, ?_, ?_, ?_, ?_, ?_, ?_⟩
    · exact hstart
    · intro n hn
      replace hn : s.started ≤ n := hn
      show phaseUpd s.phase j Phase.donePlain n = Phase.queued
      rw [phaseUpd_other _ _ (show n ≠ j by omega)]
      exact hq n hn
    · exact hlist
    · show s.remaining - E.e =
        E.fs - cnt E.tb (fun n => (phaseUpd s.phase j Phase.donePlain n).isDec) * E.e
      rw [hdecnew]
      omega
    · intro n h
      replace h : (phaseUpd s.phase j Phase.donePlain n).isPastRead = true := h
      by_cases hnj : n = j
      · rw [hnj]
        exact hf1j
      · rw [phaseUpd_other _ _ hnj] at h
        exact hf1 n h
    · intro n h
      replace h : (phaseUpd s.phase j Phase.donePlain n).isDec = true := h
      by_cases hnj : n = j
      · rw [hnj]
        exact heff
      · rw [phaseUpd_other _ _ hnj] at h
        exact hf2 n h
    · intro n h
      replace h : phaseUpd s.phase j Phase.donePlain n = Phase.failedEarly := h
      by_cases hnj : n = j
      · rw [hnj, phaseUpd_self] at h
        exact absurd h (by decide)
      · rw [phaseUpd_other _ _ hnj] at h
        exact hfe n h
    · intro n h
      replace h : phaseUpd s.phase j Phase.donePlain n = Phase.failedCommit := h
      by_cases hnj : n = j
      · rw [hnj, phaseUpd_self] at h
        exact absurd h (by decide)
      · rw [phaseUpd_other _ _ hnj] at h
        exact hfc n h
    · show s.commitCount = cnt E.tb (fun n => (phaseUpd s.phase j Phase.donePlain n).isCom)
      rw [hcomnew]
      exact hcc
    · show cnt E.tb (fun n => (phaseUpd s.phase j Phase.donePlain n).isCom) =
        if cnt E.tb (fun n => (phaseUpd s.phase j Phase.donePlain n).isDec) = E.tb ∧ 0 < E.tb
        then 1 else 0
      rw [hcomnew, hdecnew, hcomz, if_neg]
      rintro ⟨hc, -⟩
      have : E.fs - (decCount E s + 1) * E.e = 0 := (remaining_zero_iff E hle htb0).mpr hc
      omega
    · show s.errorLog.length = cnt E.tb (fun n => (phaseUpd s.phase j Phase.donePlain n).isFailed)
      rw [hfailnew]
      exact herr
    · show s.successLog = List.replicate
        (cnt E.tb (fun n => phaseUpd s.phase j Phase.donePlain n == Phase.doneCommitted)) true
      rw [hdcnew]
      exact hsl
    · exact hst1
    · exact hst2
    · exact hst3
    · intro h
      replace h : cnt E.tb (fun n => (phaseUpd s.phase j Phase.donePlain n).isCom) = 0 := h
      rw [hcomnew] at h
      exact hca0 h
    · intro h
      replace h : 0 < cnt E.tb (fun n => (phaseUpd s.phase j Phase.donePlain n).isCom) := h
      rw [hcomnew] at h
      exact hca1 h
    · intro n h
      replace h : (phaseUpd s.phase j Phase.donePlain n).isPastRead = true := h
      by_cases hnj : n = j
      · rw [hnj]
        exact hrg j (by rw [hph]; rfl)
      · rw [phaseUpd_other _ _ hnj] at h
        exact hrg n h
    · exact hiv0
    · intro hk n h
      replace h : (phaseUpd s.phase j Phase.donePlain n).isPastRead = true := h
      by_cases hnj : n = j
      · rw [hnj]
        exact hivk hk j (by rw [hph]; rfl)
      · rw [phaseUpd_other _ _ hnj] at h
        exact hivk hk n h

/-- The `commitDone` scheduler step preserves the invariant.  A job can only
be awaiting the commit when every job has decremented the counter, so the
counter is still 0 after the commit resolves and the second zero check of
part_000 line 181 succeeds: `onSuccess({artifacts})` and `resolve()` run. -/
theorem inv_commit (E : Env) (s : UState) (inv : Inv E s) (j : Nat) :
    Inv E (stepFn E s (.commitDone j)) := by
  simp only [stepFn]
  by_cases hph : s.phase j = .wCommit
  case neg => rw [if_neg hph]; exact inv
  rw [if_pos hph]
  by_cases hok : E.commitOk = true
  case neg =>
    rw [if_neg (by simpa using hok)]
    exact inv_failStep E s inv j (.commit j) .failedCommit
      (by rw [hph]; rfl) (by rw [hph]; rfl) (by rw [hph]; rfl) (by rw [hph]; rfl)
      rfl (fun _ => by rw [hph]; rfl) (by rw [hph]; rfl)
      (fun h => absurd h (by decide))
      (fun _ => by simpa using hok)
  rw [if_pos hok]
  obtain ⟨hstart, hq, hlist, hrem, hf1, hf2, hfe, hfc, hcc, hcf, herr, hsl, hst1, hst2,
    hst3, hca0, hca1, hrg, hiv0, hivk⟩ := inv
  have hjlt : j < s.started := by
    by_contra hc
    rw [hq j (by omega)] at hph
    exact absurd hph (by decide)
  have hj : j < E.tb := by omega
  have htb0 : 0 < E.tb := by omega
  have hcompos : 0 < comCount E s :=
    (cnt_pos_iff (k := E.tb) (f := fun n => (s.phase n).isCom)).mpr
      ⟨j, hj, by rw [hph]; rfl⟩
  have hdectb : decCount E s = E.tb := by
    by_contra hc
    rw [hcf, if_neg (by rintro ⟨h1, -⟩; exact hc h1)] at hcompos
    omega
  have hz : s.remaining = 0 := by
    have htb' : 0 < numJobs E.fs E.bs := htb0
    obtain ⟨hfs, he⟩ := pos_of_numJobs_pos htb'
    have hbb : E.fs ≤ E.tb * E.e := (numJobs_bounds_of_e_pos he).1
    rw [hrem, hdectb]
    omega
  rw [if_pos hz]
  have hdecnew : cnt E.tb (fun n => (phaseUpd s.phase j Phase.doneCommitted n).isDec)
      = decCount E s := cnt_phaseUpd_same _ (by rw [hph]; rfl)
  have hcomnew : cnt E.tb (fun n => (phaseUpd s.phase j Phase.doneCommitted n).isCom)
      = comCount E s := cnt_phaseUpd_same _ (by rw [hph]; rfl)
  have hfailnew : cnt E.tb (fun n => (phaseUpd s.phase j Phase.doneCommitted n).isFailed)
      = failCount E s := cnt_phaseUpd_same _ (by rw [hph]; rfl)
  have hdcnew : cnt E.tb
      (fun n => phaseUpd s.phase j Phase.doneCommitted n == Phase.doneCommitted)
      = dcCount E s + 1 :=
    cnt_phaseUpd_flip (fun p => p == Phase.doneCommitted) hj (by rw [hph]; rfl) rfl
  refine ⟨?_, ?_, ?_, ?_, ?_, ?_, ?_, ?_, ?_, ?_, ?_, ?_, ?_, ?_, ?_, ?_, ?_, ?_, ?_, ?_⟩
  · exact hstart
  · intro n hn
    replace hn : s.started ≤ n := hn
    show phaseUpd s.phase j Phase.doneCommitted n = Phase.queued
    rw [phaseUpd_other _ _ (show n ≠ j by omega)]
    exact hq n hn
  · exact hlist
  · show s.remaining =
      E.fs - cnt E.tb (fun n => (phaseUpd s.phase j Phase.doneCommitted n).isDec) * E.e
    rw [hdecnew]
    exact hrem
  · intro n h
    replace h : (phaseUpd s.phase j Phase.doneCommitted n).isPastRead = true := h
    by_cases hnj : n = j
    · rw [hnj]
      exact hf1 j (by rw [hph]; rfl)
    · rw [phaseUpd_other _ _ hnj] at h
      exact hf1 n h
  · intro n h
    replace h : (phaseUpd s.phase j Phase.doneCommitted n).isDec = true := h
    by_cases hnj : n = j
    · rw [hnj]
      exact hf2 j (by rw [hph]; rfl)
    · rw [phaseUpd_other _ _ hnj] at h
      exact hf2 n h
  · intro n h
    replace h : phaseUpd s.phase j Phase.doneCommitted n = Phase.failedEarly := h
    by_cases hnj : n = j
    · rw [hnj, phaseUpd_self] at h
      exact absurd h (by decide)
    · rw [phaseUpd_other _ _ hnj] at h
      exact hfe n h
  · intro n h
    replace h : phaseUpd s.phase j Phase.doneCommitted n = Phase.failedCommit := h
    by_cases hnj : n = j
    · rw [hnj, phaseUpd_self] at h
      exact absurd h (by decide)
    · rw [phaseUpd_other _ _ hnj] at h
      exact hfc n h
  · show s.commitCount = cnt E.tb (fun n => (phaseUpd s.phase j Phase.doneCommitted n).isCom)
    rw [hcomnew]
    exact hcc
  · show cnt E.tb (fun n => (phaseUpd s.phase j Phase.doneCommitted n).isCom) =
      if cnt E.tb (fun n => (phaseUpd s.phase j Phase.doneCommitted n).isDec) = E.tb ∧
        0 < E.tb then 1 else 0
    rw [hcomnew, hdecnew]
    exact hcf
  · show s.errorLog.length =
      cnt E.tb (fun n => (phaseUpd s.phase j Phase.doneCommitted n).isFailed)
    rw [hfailnew]
    exact herr
  · show s.successLog ++ [true] = List.replicate
      (cnt E.tb (fun n => phaseUpd s.phase j Phase.doneCommitted n == Phase.doneCommitted)) true
    rw [hdcnew, hsl, List.replicate_succ']
  · intro h
    replace h : settleWith s.settled .resolvedUndef = none := h
    rcases hset : s.settled with _ | w
    · rw [hset] at h
      exact absurd h (by simp [settleWith])
    · rw [hset] at h
      exact absurd h (by simp [settleWith])
  · intro er h
    replace h : settleWith s.settled .resolvedUndef = some (.rejected er) := h
    show s.errorLog.head? = some er
    rcases hset : s.settled with _ | w
    · rw [hset] at h
      exact absurd h (by simp [settleWith])
    · rw [hset] at h
      simp only [settleWith, Option.some.injEq] at h
      exact hst2 er (by rw [hset, h])
  · intro _
    show s.successLog ++ [true] ≠ []
    simp
  · intro h
    replace h : cnt E.tb (fun n => (phaseUpd s.phase j Phase.doneCommitted n).isCom) = 0 := h
    rw [hcomnew] at h
    exact hca0 h
  · intro h
    replace h : 0 < cnt E.tb (fun n => (phaseUpd s.phase j Phase.doneCommitted n).isCom) := h
    rw [hcomnew] at h
    exact hca1 h
  · intro n h
    replace h : (phaseUpd s.phase j Phase.doneCommitted n).isPastRead = true := h
    by_cases hnj : n = j
    · rw [hnj]
      exact hrg j (by rw [hph]; rfl)
    · rw [phaseUpd_other _ _ hnj] at h
      exact hrg n h
  · exact hiv0
  · intro hk n h
    replace h : (phaseUpd s.phase j Phase.doneCommitted n).isPastRead = true := h
    by_cases hnj : n = j
    · rw [hnj]
      exact hivk hk j (by rw [hph]; rfl)
    · rw [phaseUpd_other _ _ hnj] at h
      exact hivk hk n h

/-- Every state reached by an execution satisfies the invariant. -/
theorem inv_exec (E : Env) (sched : List UStep) : Inv E (execU E sched) := by
  suffices h : ∀ s, Inv E s → Inv E (sched.foldl (stepFn E) s) from h _ (inv_init E)
  induction sched with
  | nil => intro s hs; exact hs
  | cons a rest ih =>
    intro s hs
    apply ih
    cases a with
    | start => exact inv_start E s hs
    | readDone n => exact inv_read E s hs n
    | putDone n => exact inv_put E s hs n
    | commitDone n => exact inv_commit E s hs n

/-- In a complete run every job was started, so `started = totalBlocks`. -/
theorem started_eq_tb_of_complete (E : Env) (s : UState) (inv : Inv E s)
    (hc : completeRun E s) : s.started = E.tb := by
  have h1 : ∀ n, n < E.tb → n < s.started := by
    intro n hn
    by_contra hcc
    have hqn := inv.hq n (by omega)
    have ht := hc n hn
    rw [hqn] at ht
    exact absurd ht (by decide)
  have h2 := inv.hstart
  rcases Nat.lt_or_ge s.started E.tb with hlt | hge
  · have := h1 s.started hlt
    omega
  · omega

/-- Concrete two-block run, no encryption, out-of-order completion (block 1's
transfer finishes before block 0's; block 0 performs the commit). -/
def envOk : Env :=
  ⟨2, 1, false, 3, "block", fun _ => .ok, true, fun _ => "iv", fun _ => "at"⟩

def schedOk : List UStep :=
  [.start, .start, .readDone 1, .readDone 0, .putDone 1, .putDone 0, .commitDone 0]

/-- Concrete one-block run with an encryption key. -/
def envKey : Env :=
  ⟨1, 1, true, 3, "block", fun _ => .ok, true, fun _ => "iv0", fun _ => "at0"⟩

def schedKey : List UStep := [.start, .readDone 0, .putDone 0, .commitDone 0]

/-- Concrete two-block run where block 0's read fails and block 1 succeeds. -/
def envFail : Env :=
  ⟨2, 1, false, 3, "block", fun n => if n = 0 then .failRead else .ok, true,
    fun _ => "iv", fun _ => "at"⟩

def schedFail : List UStep :=
  [.start, .start, .readDone 1, .readDone 0, .putDone 1]

/-- Facts every all-success complete run satisfies: each job ended
`donePlain` or `doneCommitted`, exactly one job committed and succeeded, the
error log is empty, `onSuccess` ran exactly once with the artifacts object,
and the promise resolved (with no value). -/
theorem successRun_facts (E : Env) (sched : List UStep)
    (hfs : 0 < E.fs) (hbs : 0 < E.bs)
    (hok : ∀ n, n < E.tb → ¬ effFail E n)
    (hcom : E.commitOk = true)
    (hdone : completeRun E (execU E sched)) :
    (∀ n, n < E.tb → ((execU E sched).phase n = .donePlain ∨
      (execU E sched).phase n = .doneCommitted)) ∧
    (execU E sched).commitCount = 1 ∧
    dcCount E (execU E sched) = 1 ∧
    (execU E sched).errorLog = [] ∧
    (execU E sched).successLog = [true] ∧
    (execU E sched).settled = some .resolvedUndef := by
  have inv := inv_exec E sched
  have htb0 : 0 < E.tb := numJobs_pos hfs hbs
  have hterm : ∀ n, n < E.tb → ((execU E sched).phase n = .donePlain ∨
      (execU E sched).phase n = .doneCommitted) := by
    intro n hn
    have ht := hdone n hn
    rcases hphase : (execU E sched).phase n with _ | _ | _ | _ | _ | _ | _ | _
    · rw [hphase] at ht; exact absurd ht (by decide)
    · rw [hphase] at ht; exact absurd ht (by decide)
    · rw [hphase] at ht; exact absurd ht (by decide)
    · rw [hphase] at ht; exact absurd ht (by decide)
    · exact Or.inl rfl
    · exact Or.inr rfl
    · exact absurd (inv.hfe n hphase) (hok n hn)
    · exact absurd (inv.hfc n hphase) (by rw [hcom]; decide)
  have hdec : decCount E (execU E sched) = E.tb := by
    apply cnt_eq_iff_all.mpr
    intro n hn
    rcases hterm n hn with h | h <;> rw [h] <;> rfl
  have hcom1 : comCount E (execU E sched) = 1 := by
    rw [inv.hcf, if_pos ⟨hdec, htb0⟩]
  have hdc1 : dcCount E (execU E sched) = 1 := by
    rw [← hcom1]
    apply cnt_congr
    intro n hn
    rcases hterm n hn with h | h <;> rw [h] <;> rfl
  have hfail0 : failCount E (execU E sched) = 0 := by
    apply cnt_of_all_false
    intro n hn
    rcases hterm n hn with h | h <;> rw [h] <;> rfl
  have herr0 : (execU E sched).errorLog = [] :=
    List.eq_nil_of_length_eq_zero (by rw [inv.herr, hfail0])
  have hslog : (execU E sched).successLog = [true] := by
    rw [inv.hsl, hdc1]
    rfl
  refine ⟨hterm, by rw [inv.hcc, hcom1], hdc1, herr0, hslog, ?_⟩
  rcases hset : (execU E sched).settled with _ | w
  · obtain ⟨-, hsl⟩ := inv.hst1 hset
    rw [hslog] at hsl
    exact absurd hsl (by simp)
  · cases w with
    | resolvedUndef => rfl
    | rejected er =>
      have := inv.hst2 er hset
      rw [herr0] at this
      exact absurd this (by simp)

/-- C1: in every complete execution of an upload with at least one block in
which no job fails and the commit succeeds, `putBlockList` is invoked exactly
once — by the unique job that ends in `doneCommitted`, i.e. the job whose
decrement drove `totalRemainingBytes` to zero (entering `wCommit` requires
exactly that) — and this holds for every schedule, hence for every completion
order: no order invokes the commit twice and none skips it.  The promise
resolves and `onSuccess` runs exactly once. -/
theorem commit_exactly_once (E : Env) (sched : List UStep)
    (hfs : 0 < E.fs) (hbs : 0 < E.bs)
    (hok : ∀ n, n < E.tb → ¬ effFail E n)
    (hcom : E.commitOk = true)
    (hdone : completeRun E (execU E sched)) :
    (execU E sched).commitCount = 1 ∧
    (∃ jl, jl < E.tb ∧ (execU E sched).phase jl = .doneCommitted ∧
      ∀ i, i < E.tb → (execU E sched).phase i = .doneCommitted → i = jl) ∧
    (execU E sched).settled = some .resolvedUndef ∧
    (execU E sched).successLog = [true] := by
  obtain ⟨hterm, hcc1, hdc1, herr0, hslog, hsettled⟩ :=
    successRun_facts E sched hfs hbs hok hcom hdone
  refine ⟨hcc1, ?_, hsettled, hslog⟩
  have hdcpos : 0 < dcCount E (execU E sched) := by omega
  obtain ⟨jl, hjl, hjb⟩ := (cnt_pos_iff (k := E.tb)
    (f := fun n => (execU E sched).phase n == Phase.doneCommitted)).mp hdcpos
  refine ⟨jl, hjl, by simpa using hjb, ?_⟩
  intro i hi hib
  by_contra hne
  have h2 := cnt_two (f := fun n => (execU E sched).phase n == Phase.doneCommitted)
    hi hjl hne (by simpa using hib) hjb
  rw [show cnt E.tb (fun n => (execU E sched).phase n == Phase.doneCommitted)
      = dcCount E (execU E sched) from rfl, hdc1] at h2
  omega

/-- C1 witness: the two-block out-of-order run completes and commits once. -/
theorem commit_exactly_once_witness :
    0 < envOk.fs ∧ 0 < envOk.bs ∧ (∀ n, n < envOk.tb → ¬ effFail envOk n) ∧
      envOk.commitOk = true ∧ completeRun envOk (execU envOk schedOk) ∧
      (execU envOk schedOk).commitCount = 1 ∧
      (execU envOk schedOk).settled = some .resolvedUndef := by
  have h := commit_exactly_once envOk schedOk (by decide) (by decide)
    (by decide) (by decide)
    (by show ∀ n, n < envOk.tb → ((execU envOk schedOk).phase n).isTerminal = true
        decide)
  exact ⟨by decide, by decide, by decide, by decide,
    by show ∀ n, n < envOk.tb → ((execU envOk schedOk).phase n).isTerminal = true
       decide,
    h.1, h.2.2.1⟩

/-- C2: if any block job effectively fails (read error, encryption error with
a key supplied, or transfer error) then in every complete schedule the commit
is never invoked, `onSuccess` never runs, at least one `onError` fired, and
the promise is rejected with the first error that occurred (the head of the
`onError` log). -/
theorem block_failure_rejects (E : Env) (sched : List UStep) (n0 : Nat)
    (hn0 : n0 < E.tb) (hfail : effFail E n0)
    (hdone : completeRun E (execU E sched)) :
    (execU E sched).commitCount = 0 ∧
    (execU E sched).successLog = [] ∧
    (execU E sched).errorLog ≠ [] ∧
    ∃ er, (execU E sched).settled = some (.rejected er) ∧
      (execU E sched).errorLog.head? = some er := by
  have inv := inv_exec E sched
  have hfe0 : (execU E sched).phase n0 = .failedEarly := by
    have ht := hdone n0 hn0
    rcases hphase : (execU E sched).phase n0 with _ | _ | _ | _ | _ | _ | _ | _
    · rw [hphase] at ht; exact absurd ht (by decide)
    · rw [hphase] at ht; exact absurd ht (by decide)
    · rw [hphase] at ht; exact absurd ht (by decide)
    · rw [hphase] at ht; exact absurd ht (by decide)
    · exact absurd (inv.hf2 n0 (by rw [hphase]; rfl)) (by simp [hfail])
    · exact absurd (inv.hf2 n0 (by rw [hphase]; rfl)) (by simp [hfail])
    · rfl
    · exact absurd (inv.hf2 n0 (by rw [hphase]; rfl)) (by simp [hfail])
  have hdeclt : decCount E (execU E sched) ≠ E.tb := by
    intro hc
    have hall := cnt_eq_iff_all.mp hc n0 hn0
    rw [hfe0] at hall
    exact absurd hall (by decide)
  have hcom0 : comCount E (execU E sched) = 0 := by
    rw [inv.hcf, if_neg]
    rintro ⟨h1, -⟩
    exact hdeclt h1
  have hdc0 : dcCount E (execU E sched) = 0 := by
    have hmono : dcCount E (execU E sched) ≤ comCount E (execU E sched) :=
      cnt_mono (fun n h => by
        show ((execU E sched).phase n).isCom = true
        have h' : ((execU E sched).phase n == Phase.doneCommitted) = true := h
        have hdc : (execU E sched).phase n = Phase.doneCommitted := by simpa using h'
        rw [hdc]
        rfl)
    omega
  have hsl0 : (execU E sched).successLog = [] := by
    rw [inv.hsl, hdc0]
    rfl
  have herrpos : 0 < (execU E sched).errorLog.length := by
    rw [inv.herr]
    exact cnt_pos_iff.mpr ⟨n0, hn0, by rw [hfe0]; rfl⟩
  refine ⟨by rw [inv.hcc, hcom0], hsl0, ?_, ?_⟩
  · intro hnil
    rw [hnil] at herrpos
    exact absurd herrpos (by simp)
  · rcases hset : (execU E sched).settled with _ | w
    · obtain ⟨hnil, -⟩ := inv.hst1 hset
      rw [hnil] at herrpos
      exact absurd herrpos (by simp)
    · cases w with
      | resolvedUndef => exact absurd (inv.hst3 hset) (by simp [hsl0])
      | rejected er => exact ⟨er, rfl, inv.hst2 er hset⟩

/-- C2 witness: with block 0's read failing, the complete run commits
nothing and rejects with that read error. -/
theorem block_failure_rejects_witness :
    (0 : Nat) < envFail.tb ∧ effFail envFail 0 ∧
      completeRun envFail (execU envFail schedFail) ∧
      (execU envFail schedFail).commitCount = 0 ∧
      (execU envFail schedFail).settled = some (.rejected (.read 0)) := by
  have h := block_failure_rejects envFail schedFail 0 (by decide)
    (by left; decide)
    (by show ∀ n, n < envFail.tb → ((execU envFail schedFail).phase n).isTerminal = true
        decide)
  obtain ⟨h1, -, -, er, hset, hhead⟩ := h
  refine ⟨by decide, by left; decide,
    by show ∀ n, n < envFail.tb → ((execU envFail schedFail).phase n).isTerminal = true
       decide,
    h1, ?_⟩
  rw [hset]
  congr 1
  congr 1
  have : er = UErr.read 0 := by
    have hh : (execU envFail schedFail).errorLog.head? = some (UErr.read 0) := by decide
    rw [hh] at hhead
    cases hhead
    rfl
  rw [this]

/-- C3 counterexample: in a successful upload started *without* an
encryption key, the promise still resolves with no value (`resolve()`,
modelled by `resolvedUndef` — not with a `{ artifacts }` object), and the
`onSuccess` payload *does* contain the artifacts field (the log entry is
`true`) even though no key was supplied — contradicting "resolves with
`{ artifacts }`, present only if an encryption key was supplied". -/
theorem resolve_value_counterexample :
    envOk.key = false ∧
    (execU envOk schedOk).settled = some .resolvedUndef ∧
    (execU envOk schedOk).successLog = [true] := by
  refine ⟨by decide, by decide, by decide⟩

/-- C3 amended: when every block job succeeds, the promise returned by
`start` resolves exactly once with `undefined` (the code calls `resolve()`
with no argument, part_000 line 183); the `{ artifacts }` object is passed to
the `onSuccess` callback instead, and it is passed whether or not an
encryption key was supplied (`E.key` is arbitrary here). -/
theorem resolve_undefined_artifacts_in_callback (E : Env) (sched : List UStep)
    (hfs : 0 < E.fs) (hbs : 0 < E.bs)
    (hok : ∀ n, n < E.tb → ¬ effFail E n)
    (hcom : E.commitOk = true)
    (hdone : completeRun E (execU E sched)) :
    (execU E sched).settled = some .resolvedUndef ∧
    (execU E sched).successLog = [true] := by
  obtain ⟨-, -, -, -, hslog, hsettled⟩ := successRun_facts E sched hfs hbs hok hcom hdone
  exact ⟨hsettled, hslog⟩

/-- C3 witness: the encrypted one-block run also resolves with `undefined`
and passes artifacts to `onSuccess`. -/
theorem resolve_undefined_artifacts_in_callback_witness :
    0 < envKey.fs ∧ envKey.key = true ∧
      completeRun envKey (execU envKey schedKey) ∧
      (execU envKey schedKey).settled = some .resolvedUndef ∧
      (execU envKey schedKey).successLog = [true] := by
  have h := resolve_undefined_artifacts_in_callback envKey schedKey (by decide) (by decide)
    (by decide) (by decide)
    (by show ∀ n, n < envKey.tb → ((execU envKey schedKey).phase n).isTerminal = true
        decide)
  exact ⟨by decide, by decide,
    by show ∀ n, n < envKey.tb → ((execU envKey schedKey).phase n).isTerminal = true
       decide,
    h.1, h.2⟩

/-- C6 counterexample: with *no* encryption key, the `range` entries of the
artifacts object are still recorded for every block (part_000 line 143 runs
unconditionally), and the always-present artifacts object is passed to
`onSuccess` — contradicting "no EncryptionArtifacts entries are produced for
any block and the artifacts structure is absent from the outcome". -/
theorem range_recorded_without_key :
    envOk.key = false ∧
    (execU envOk schedOk).aRange 0 = some "bytes=0-0" ∧
    (execU envOk schedOk).aRange 1 = some "bytes=1-1" ∧
    (execU envOk schedOk).successLog = [true] := by
  refine ⟨by decide, by decide, by decide, by decide⟩

/-- C6 amended: `iv` and `at` are recorded at a block's index only when an
encryption key is supplied (without a key they are never written), while
`range` is recorded for every block whose read completed, key or no key; when
a key is supplied, every such block also has its `iv` and `at` recorded. -/
theorem artifacts_iv_at_key_only (E : Env) (sched : List UStep) :
    (E.key = false → ∀ n, (execU E sched).aIv n = none ∧ (execU E sched).aAt n = none) ∧
    (∀ n, ((execU E sched).phase n).isPastRead = true →
      (execU E sched).aRange n = some (rangeStr E n) ∧
      (E.key = true → (execU E sched).aIv n = some (E.ivGen n) ∧
        (execU E sched).aAt n = some (E.atGen n))) := by
  have inv := inv_exec E sched
  exact ⟨inv.hiv0, fun n h => ⟨inv.hrg n h, fun hk => inv.hivk hk n h⟩⟩

/-- C6 witness: without a key no iv/at entry exists; with a key block 0's
range, iv and at are all recorded. -/
theorem artifacts_iv_at_key_only_witness :
    envOk.key = false ∧ (execU envOk schedOk).aIv 0 = none ∧
    ((execU envKey schedKey).phase 0).isPastRead = true ∧
    (execU envKey schedKey).aRange 0 = some "bytes=0-0" ∧
    (execU envKey schedKey).aIv 0 = some "iv0" ∧
    (execU envKey schedKey).aAt 0 = some "at0" := by
  refine ⟨by decide, ((artifacts_iv_at_key_only envOk schedOk).1 (by decide) 0).1,
    by decide, ?_, ?_, ?_⟩
  · exact ((artifacts_iv_at_key_only envKey schedKey).2 0 (by decide)).1
  · exact (((artifacts_iv_at_key_only envKey schedKey).2 0 (by decide)).2 (by decide)).1
  · exact (((artifacts_iv_at_key_only envKey schedKey).2 0 (by decide)).2 (by decide)).2

/-- C7 counterexample: for a 0-byte file neither claimed behaviour occurs.
Construction succeeds (no `InvalidConfiguration`), and `totalBlocks` is NaN
(`none`), not 1 — the for-loop submits 0 jobs. -/
theorem zero_byte_file_counterexample :
    (mkUpload 268435456 true true 0 .missing .missing).isOk = true ∧
    totalBlocksN 0 268435456 = none ∧
    numJobs 0 268435456 = 0 := by
  refine ⟨rfl, by decide, by decide⟩

/-- C7 amended: a 0-byte file is accepted by the constructor, but
`analizeFile` shrinks the block size to 0, making `totalBlocks` NaN
(`0 % 0` → NaN): the submission loop runs zero times, so no block is
uploaded, no commit happens, no blockID is produced, and the promise never
settles, under every schedule — neither of the two behaviours in the claim. -/
theorem zero_byte_file_never_settles (E : Env) (sched : List UStep)
    (hfs : E.fs = 0) :
    totalBlocksN E.fs E.bs = none ∧
    (execU E sched).started = 0 ∧
    (execU E sched).blockIDList = [] ∧
    (execU E sched).commitCount = 0 ∧
    (execU E sched).settled = none := by
  have he : effBlockSize E.fs E.bs = 0 := by rw [hfs]; exact effBlockSize_zero_of_fs_zero E.bs
  have htb : E.tb = 0 := numJobs_zero_of_e_zero he
  have inv := inv_exec E sched
  have hst0 : (execU E sched).started = 0 := by
    have := inv.hstart
    omega
  have hcom0 : comCount E (execU E sched) = 0 := by
    show cnt E.tb _ = 0
    rw [htb]
    rfl
  have hfail0 : failCount E (execU E sched) = 0 := by
    show cnt E.tb _ = 0
    rw [htb]
    rfl
  have hdc0 : dcCount E (execU E sched) = 0 := by
    show cnt E.tb _ = 0
    rw [htb]
    rfl
  have herr0 : (execU E sched).errorLog = [] :=
    List.eq_nil_of_length_eq_zero (by rw [inv.herr, hfail0])
  have hsl0 : (execU E sched).successLog = [] := by
    rw [inv.hsl, hdc0]
    rfl
  refine ⟨by unfold totalBlocksN; rw [if_pos he], hst0,
    by rw [inv.hlist, hst0]; rfl, by rw [inv.hcc, hcom0], ?_⟩
  rcases hset : (execU E sched).settled with _ | w
  · rfl
  · cases w with
    | resolvedUndef => exact absurd (inv.hst3 hset) (by simp [hsl0])
    | rejected er =>
      have := inv.hst2 er hset
      rw [herr0] at this
      exact absurd this (by simp)

/-- C7 amended witness: a concrete 0-byte upload with the default block size
stays unsettled after a schedule that tries to run jobs. -/
theorem zero_byte_file_never_settles_witness :
    (⟨0, 268435456, false, 3, "block", fun _ => .ok, true, fun _ => "", fun _ => ""⟩ :
      Env).fs = 0 ∧
    (execU ⟨0, 268435456, false, 3, "block", fun _ => .ok, true, fun _ => "", fun _ => ""⟩
      [.start, .readDone 0, .putDone 0]).settled = none := by
  have h := zero_byte_file_never_settles
    ⟨0, 268435456, false, 3, "block", fun _ => .ok, true, fun _ => "", fun _ => ""⟩
    [.start, .readDone 0, .putDone 0] rfl
  exact ⟨rfl, h.2.2.2.2⟩

/-- C8: in every execution `blockIDList` holds the identifiers of the jobs
started so far, in block-index order (the ThreadPool starts jobs FIFO and
each job pushes its blockID in its first synchronous segment, before its
transfer completes); hence in every complete run — whatever the completion
order — the list handed to `putBlockList` is the full list ordered by block
index. -/
theorem blockIDList_submission_order (E : Env) (sched : List UStep)
    (hdone : completeRun E (execU E sched)) :
    (execU E sched).blockIDList = (List.range E.tb).map (blockIDStr E.idPre) ∧
    ((execU E sched).commitArg = none ∨
      (execU E sched).commitArg = some ((List.range E.tb).map (blockIDStr E.idPre))) := by
  have inv := inv_exec E sched
  have hs := started_eq_tb_of_complete E _ inv hdone
  refine ⟨by rw [inv.hlist, hs], ?_⟩
  rcases Nat.eq_zero_or_pos (comCount E (execU E sched)) with h | h
  · exact Or.inl (inv.hca0 h)
  · exact Or.inr (inv.hca1 h)

/-- C8 witness: in the out-of-order two-block run (block 1 finishes first)
the list is still `[id 0, id 1]` and that list is what the commit received. -/
theorem blockIDList_submission_order_witness :
    completeRun envOk (execU envOk schedOk) ∧
    (execU envOk schedOk).blockIDList =
      (List.range envOk.tb).map (blockIDStr envOk.idPre) ∧
    (execU envOk schedOk).commitArg =
      some ((List.range envOk.tb).map (blockIDStr envOk.idPre)) := by
  have hc : completeRun envOk (execU envOk schedOk) := by
    show ∀ n, n < envOk.tb → ((execU envOk schedOk).phase n).isTerminal = true
    decide
  have h := blockIDList_submission_order envOk schedOk hc
  refine ⟨hc, h.1, ?_⟩
  rcases h.2 with h2 | h2
  · exact absurd h2 (by decide)
  · exact h2

/-- C10: every started job has already pushed its blockID (it does so before
its read resolves), a failure never removes the entry — a job that ended in
`failedEarly` still has its identifier in the list — and the list's length
equals the number of started jobs. -/
theorem blockIDList_append_only (E : Env) (sched : List UStep) :
    (execU E sched).blockIDList.length = (execU E sched).started ∧
    (∀ n, ((execU E sched).phase n).isRunning = true →
      blockIDStr E.idPre n ∈ (execU E sched).blockIDList) ∧
    (∀ n, (execU E sched).phase n = .failedEarly →
      blockIDStr E.idPre n ∈ (execU E sched).blockIDList) := by
  have inv := inv_exec E sched
  have hmem : ∀ n, n < (execU E sched).started →
      blockIDStr E.idPre n ∈ (execU E sched).blockIDList := by
    intro n hn
    rw [inv.hlist]
    exact List.mem_map_of_mem _ (List.mem_range.mpr hn)
  refine ⟨by rw [inv.hlist, List.length_map, List.length_range], ?_, ?_⟩
  · intro n h
    apply hmem
    by_contra hc
    rw [inv.hq n (by omega)] at h
    exact absurd h (by decide)
  · intro n h
    apply hmem
    by_contra hc
    rw [inv.hq n (by omega)] at h
    exact absurd h (by decide)

/-- C10 witness: block 0's read failed, yet its identifier is still in the
list, whose length equals the number of started jobs (2). -/
theorem blockIDList_append_only_witness :
    (execU envFail schedFail).phase 0 = .failedEarly ∧
    blockIDStr envFail.idPre 0 ∈ (execU envFail schedFail).blockIDList ∧
    (execU envFail schedFail).blockIDList.length = (execU envFail schedFail).started := by
  have h := blockIDList_append_only envFail schedFail
  exact ⟨by decide, h.2.2 0 (by decide), h.1⟩

end AzureBlockUpload
